import Mathlib

/-!
Verification development for the search-engine repository.

The Python sources are shallowly embedded: pure functions become Lean
functions, the MongoDB collections become lists of records, Python dicts
become association lists with insertion-order update semantics, Python
floats in the BM25 scorer are modelled as real numbers, and Python ints as
Int or Nat where their values are provably non-negative.

External collaborators that are not part of the repository are modelled at
their interface:
the nltk WordNet lemmatizer (external data driven) is modelled on the
inputs this development evaluates, the nltk Porter stemmer is embedded in
full following the published nltk implementation, and the stopword set is
the built-in fallback list from the source (the canonical set).
-/

namespace SearchEngine

/-! ## Python dict and set models

A Python dict is an association list; assignment updates an existing key
in place (keeping its position) and otherwise appends, which reproduces
the insertion-order iteration semantics of dict. A Python set of strings
is a duplicate-free list where only membership matters. -/

def dictFind? {α : Type} (m : List (String × α)) (k : String) : Option α :=
  (m.find? (fun kv => kv.1 = k)).map (fun kv => kv.2)

def dictSet {α : Type} : List (String × α) → String → α → List (String × α)
  | [], k, v => [(k, v)]
  | kv :: rest, k, v =>
    if kv.1 = k then (k, v) :: rest else kv :: dictSet rest k v

def setAdd (s : List String) (x : String) : List String :=
  if x ∈ s then s else s ++ [x]

/-! ## Character model

The tokenizer regex class is pure ASCII. Python str.lower is modelled per
character on the ASCII range (the only range the regex can ever match). -/

def isUpperAZ (c : Char) : Bool := 'A' ≤ c && c ≤ 'Z'

def isLowerAZ (c : Char) : Bool := 'a' ≤ c && c ≤ 'z'

def isAsciiLetter (c : Char) : Bool := isUpperAZ c || isLowerAZ c

/-- Model of Python str.lower, per character, on the ASCII range. -/
def pyLower (c : Char) : Char :=
  if isUpperAZ c then Char.ofNat (c.toNat + 32) else c

def pyLowerS (s : String) : String := String.mk (s.toList.map pyLower)

/-- The continuation class of the tokenizer regex [A-Za-z][A-Za-z\-']+ . -/
def isWordChar (c : Char) : Bool := isAsciiLetter c || c = '-' || c = '\''

/-! ## tokenize (src/search_engine/text.py)

re.findall of [A-Za-z][A-Za-z\-']+ over the lowercased text: scan left to
right; at a letter followed by at least one word-class character, emit the
maximal match and resume after it; otherwise advance one character. -/

def findTokensF : Nat → List Char → List (List Char)
  | 0, _ => []
  | _, [] => []
  | fuel + 1, c :: rest =>
    if isAsciiLetter c then
      if rest.takeWhile isWordChar = [] then findTokensF fuel rest
      else (c :: rest.takeWhile isWordChar) :: findTokensF fuel (rest.dropWhile isWordChar)
    else findTokensF fuel rest

/-- The scan consumes at least one character per step, so the length of
the input is sufficient fuel and the fuel-zero default is never reached. -/
def findTokens (l : List Char) : List (List Char) := findTokensF l.length l

def tokenize (s : String) : List String :=
  (findTokens (s.toList.map pyLower)).map (fun cs => String.mk cs)

/-- FALLBACK_STOPWORDS from src/search_engine/text.py. The loader
_get_stopwords_set tries the external nltk stopword corpus first and falls
back to this built-in list; the modelled stopword set is the built-in list,
which the spec designates as canonical. -/
def FALLBACK_STOPWORDS : List String :=
  ["a", "about", "above", "after", "again", "against", "all", "am", "an", "and", "any", "are", "as", "at",
   "be", "because", "been", "before", "being", "below", "between", "both", "but", "by",
   "could", "did", "do", "does", "doing", "down", "during",
   "each", "few", "for", "from", "further",
   "had", "has", "have", "having", "he", "her", "here", "hers", "herself", "him", "himself", "his", "how",
   "i", "if", "in", "into", "is", "it", "its", "itself",
   "just",
   "me", "more", "most", "my", "myself",
   "no", "nor", "not", "now",
   "of", "off", "on", "once", "only", "or", "other", "our", "ours", "ourselves", "out", "over", "own",
   "same", "she", "should", "so", "some", "such",
   "than", "that", "the", "their", "theirs", "them", "themselves", "then", "there", "these", "they", "this", "those", "through", "to", "too",
   "under", "until", "up",
   "very",
   "was", "we", "were", "what", "when", "where", "which", "while", "who", "whom", "why", "will", "with", "would",
   "you", "your", "yours", "yourself", "yourselves"]

/-! ## Porter stemmer (nltk.stem.PorterStemmer, default NLTK_EXTENSIONS mode)

The source calls PorterStemmer().stem on each token. The stemmer is
embedded in full after the nltk implementation, including the nltk
extensions to the published algorithm. Words are lists of characters. -/

namespace Porter

def isVowelChar (c : Char) : Bool :=
  c = 'a' || c = 'e' || c = 'i' || c = 'o' || c = 'u'

/-- Consonant flags of a word: position i is true iff the character at i is
a consonant in the Porter sense (y is a consonant iff it is at position 0
or follows a vowel). -/
def consFlagsAux : Option Bool → List Char → List Bool
  | _, [] => []
  | prev, c :: rest =>
    let b :=
      if isVowelChar c then false
      else if c = 'y' then
        match prev with
        | none => true
        | some p => !p
      else true
    b :: consFlagsAux (some b) rest

def consFlags (w : List Char) : List Bool := consFlagsAux none w

def isConsonantAt (w : List Char) (i : Nat) : Bool := (consFlags w).getD i false

/-- The measure m of a stem: the number of vowel-consonant transitions. -/
def pMeasure (w : List Char) : Nat :=
  let fl := consFlags w
  ((fl.zip fl.tail).filter (fun p => !p.1 && p.2)).length

def containsVowel (w : List Char) : Bool := (consFlags w).any (fun b => !b)

def endsDoubleConsonant (w : List Char) : Bool :=
  2 ≤ w.length &&
    w.getD (w.length - 1) ' ' = w.getD (w.length - 2) ' ' &&
    isConsonantAt w (w.length - 1)

/-- ends cvc, with the nltk extension for two-letter vc words. -/
def endsCVC (w : List Char) : Bool :=
  (3 ≤ w.length &&
     isConsonantAt w (w.length - 3) &&
     !isConsonantAt w (w.length - 2) &&
     isConsonantAt w (w.length - 1) &&
     !(w.getD (w.length - 1) ' ' = 'w' || w.getD (w.length - 1) ' ' = 'x' ||
       w.getD (w.length - 1) ' ' = 'y'))
  || (w.length = 2 && !isConsonantAt w 0 && isConsonantAt w 1)

/-- One rewrite rule: a suffix, its replacement, and an optional guard on
the stripped stem. -/
structure Rule where
  suffix : List Char
  repl : List Char
  guard? : Option (List Char → Bool)

/-- apply_rule_list: the first rule whose suffix matches fires; if its
guard fails the word is returned unchanged and no further rule is tried. -/
def applyRules (w : List Char) : List Rule → List Char
  | [] => w
  | r :: rest =>
    if r.suffix <:+ w then
      let stem := w.take (w.length - r.suffix.length)
      match r.guard? with
      | none => stem ++ r.repl
      | some g => if g stem then stem ++ r.repl else w
    else applyRules w rest

def hpm (stem : List Char) : Bool := 0 < pMeasure stem

def step1a (w : List Char) : List Char :=
  if "ies".toList <:+ w ∧ w.length = 4 then w.take (w.length - 3) ++ "ie".toList
  else
    applyRules w
      [⟨"sses".toList, "ss".toList, none⟩,
       ⟨"ies".toList, "i".toList, none⟩,
       ⟨"ss".toList, "ss".toList, none⟩,
       ⟨"s".toList, [], none⟩]

/-- The tail of step1b: the rule list applied to the intermediate stem
after a successful ed or ing removal, with the star-d rule inlined. -/
def step1bPost (w : List Char) : List Char :=
  if "at".toList <:+ w then w.take (w.length - 2) ++ "ate".toList
  else if "bl".toList <:+ w then w.take (w.length - 2) ++ "ble".toList
  else if "iz".toList <:+ w then w.take (w.length - 2) ++ "ize".toList
  else if endsDoubleConsonant w then
    if w.getLastD ' ' = 'l' || w.getLastD ' ' = 's' || w.getLastD ' ' = 'z' then w
    else w.take (w.length - 2) ++ [w.getLastD ' ']
  else if pMeasure w = 1 ∧ endsCVC w then w ++ "e".toList
  else w

def step1b (w : List Char) : List Char :=
  if "ied".toList <:+ w then
    if w.length = 4 then w.take (w.length - 3) ++ "ie".toList
    else w.take (w.length - 3) ++ "i".toList
  else if "eed".toList <:+ w then
    if 0 < pMeasure (w.take (w.length - 3)) then w.take (w.length - 3) ++ "ee".toList
    else w
  else if "ed".toList <:+ w ∧ containsVowel (w.take (w.length - 2)) then
    step1bPost (w.take (w.length - 2))
  else if "ing".toList <:+ w ∧ containsVowel (w.take (w.length - 3)) then
    step1bPost (w.take (w.length - 3))
  else w

def step1c (w : List Char) : List Char :=
  if "y".toList <:+ w then
    let stem := w.take (w.length - 1)
    if 1 < stem.length ∧ isConsonantAt stem (stem.length - 1) then stem ++ "i".toList
    else w
  else w

/-- The rule list of step 2; the guard of the logi rule inspects the whole
current word, as in nltk. -/
def step2Rules (w : List Char) : List Char :=
  applyRules w
      [⟨"ational".toList, "ate".toList, some hpm⟩,
       ⟨"tional".toList, "tion".toList, some hpm⟩,
       ⟨"enci".toList, "ence".toList, some hpm⟩,
       ⟨"anci".toList, "ance".toList, some hpm⟩,
       ⟨"izer".toList, "ize".toList, some hpm⟩,
       ⟨"bli".toList, "ble".toList, some hpm⟩,
       ⟨"alli".toList, "al".toList, some hpm⟩,
       ⟨"entli".toList, "ent".toList, some hpm⟩,
       ⟨"eli".toList, "e".toList, some hpm⟩,
       ⟨"ousli".toList, "ous".toList, some hpm⟩,
       ⟨"ization".toList, "ize".toList, some hpm⟩,
       ⟨"ation".toList, "ate".toList, some hpm⟩,
       ⟨"ator".toList, "ate".toList, some hpm⟩,
       ⟨"alism".toList, "al".toList, some hpm⟩,
       ⟨"iveness".toList, "ive".toList, some hpm⟩,
       ⟨"fulness".toList, "ful".toList, some hpm⟩,
       ⟨"ousness".toList, "ous".toList, some hpm⟩,
       ⟨"aliti".toList, "al".toList, some hpm⟩,
       ⟨"iviti".toList, "ive".toList, some hpm⟩,
       ⟨"biliti".toList, "ble".toList, some hpm⟩,
       ⟨"fulli".toList, "ful".toList, some hpm⟩,
       ⟨"logi".toList, "log".toList, some (fun _ => 0 < pMeasure (w.take (w.length - 3)))⟩]

/-- step 2 with the nltk alli extension, which rewrites a positive-measure
alli suffix to al and restarts step 2. Each restart shortens the word by
two characters, so the length of the word is sufficient fuel and the
fuel-zero default is never reached. -/
def step2F : Nat → List Char → List Char
  | 0, w => step2Rules w
  | fuel + 1, w =>
    if "alli".toList <:+ w ∧ 0 < pMeasure (w.take (w.length - 4)) then
      step2F fuel (w.take (w.length - 4) ++ "al".toList)
    else step2Rules w

def step2 (w : List Char) : List Char := step2F w.length w

def step3 (w : List Char) : List Char :=
  applyRules w
    [⟨"icate".toList, "ic".toList, some hpm⟩,
     ⟨"ative".toList, [], some hpm⟩,
     ⟨"alize".toList, "al".toList, some hpm⟩,
     ⟨"iciti".toList, "ic".toList, some hpm⟩,
     ⟨"ical".toList, "ic".toList, some hpm⟩,
     ⟨"ful".toList, [], some hpm⟩,
     ⟨"ness".toList, [], some hpm⟩]

def mGt1 (stem : List Char) : Bool := 1 < pMeasure stem

def step4 (w : List Char) : List Char :=
  applyRules w
    [⟨"al".toList, [], some mGt1⟩,
     ⟨"ance".toList, [], some mGt1⟩,
     ⟨"ence".toList, [], some mGt1⟩,
     ⟨"er".toList, [], some mGt1⟩,
     ⟨"ic".toList, [], some mGt1⟩,
     ⟨"able".toList, [], some mGt1⟩,
     ⟨"ible".toList, [], some mGt1⟩,
     ⟨"ant".toList, [], some mGt1⟩,
     ⟨"ement".toList, [], some mGt1⟩,
     ⟨"ment".toList, [], some mGt1⟩,
     ⟨"ent".toList, [], some mGt1⟩,
     ⟨"ion".toList, [],
       some (fun stem => mGt1 stem && (stem.getLastD ' ' = 's' || stem.getLastD ' ' = 't'))⟩,
     ⟨"ou".toList, [], some mGt1⟩,
     ⟨"ism".toList, [], some mGt1⟩,
     ⟨"ate".toList, [], some mGt1⟩,
     ⟨"iti".toList, [], some mGt1⟩,
     ⟨"ous".toList, [], some mGt1⟩,
     ⟨"ive".toList, [], some mGt1⟩,
     ⟨"ize".toList, [], some mGt1⟩]

def step5a (w : List Char) : List Char :=
  if "e".toList <:+ w then
    let stem := w.take (w.length - 1)
    if 1 < pMeasure stem then stem
    else if pMeasure stem = 1 ∧ !endsCVC stem then stem
    else w
  else w

def step5b (w : List Char) : List Char :=
  if "ll".toList <:+ w ∧ 1 < pMeasure (w.take (w.length - 1)) then
    w.take (w.length - 2) ++ "l".toList
  else w

/-- The irregular-forms pool of the nltk extensions, inverted. -/
def pool : List (String × String) :=
  [("sky", "sky"), ("skies", "sky"),
   ("dying", "die"), ("lying", "lie"), ("tying", "tie"),
   ("news", "news"),
   ("innings", "inning"), ("inning", "inning"),
   ("outings", "outing"), ("outing", "outing"),
   ("cannings", "canning"), ("canning", "canning"),
   ("howe", "howe"),
   ("proceed", "proceed"), ("exceed", "exceed"), ("succeed", "succeed")]

end Porter

/-- nltk PorterStemmer().stem: pool lookup, the length-at-most-2 shortcut of
the nltk extensions, then steps 1a-5b on the lowercased word. -/
def porterStem (word : String) : String :=
  match Porter.pool.find? (fun kv => kv.1 = word) with
  | some kv => kv.2
  | none =>
    if word.length ≤ 2 then word
    else
      String.mk (Porter.step5b (Porter.step5a (Porter.step4 (Porter.step3
        (Porter.step2 (Porter.step1c (Porter.step1b (Porter.step1a
          (word.toList.map pyLower)))))))))

/-- Model of nltk WordNetLemmatizer().lemmatize with its default pos of
noun, whose output is determined by the external WordNet database (morphy
with the noun exception list and noun suffix substitutions, filtered by
the WordNet lemma index). It is modelled exactly on the inputs this
development evaluates: feet is in the WordNet noun exception list and maps
to foot; fox, box and quick are WordNet noun lemmas and map to themselves,
as does every other word this file passes through the lemmatizer. -/
def wordnetLemmatize (w : String) : String :=
  if w = "feet" then "foot" else w

structure NormalizedText where
  original_text : String
  tokens : List String
  joined : String
deriving DecidableEq

/-- normalize_text_for_index from src/search_engine/text.py: tokenize,
drop stopwords and length-one tokens, lemmatize, stem, join. -/
def normalize_text_for_index (text : String) : NormalizedText :=
  let stop := FALLBACK_STOPWORDS
  let raw_tokens := tokenize text
  let filtered_tokens := raw_tokens.filter (fun t => !stop.contains t && decide (1 < t.length))
  let lemmatized := filtered_tokens.map wordnetLemmatize
  let stemmed := lemmatized.map porterStem
  let joined := String.intercalate " " stemmed
  ⟨text, stemmed, joined⟩

/-! ## summarize_text (src/search_engine/text.py) -/

/-- Model of the Python regex class backslash-s on str: tab through
carriage return, the C1 separators, space, next line, no-break space, and
the Unicode space separators, given by codepoint. -/
def pyIsSpace (c : Char) : Bool :=
  let n := c.toNat
  (9 ≤ n && n ≤ 13) || n = 28 || n = 29 || n = 30 || n = 31 || n = 32 ||
  n = 133 || n = 160 || n = 5760 || (8192 ≤ n && n ≤ 8202) ||
  n = 8232 || n = 8233 || n = 8239 || n = 8287 || n = 12288

/-- re.sub of one-or-more whitespace by a single space. At least one
character is consumed per step, so the length of the input is sufficient
fuel and the fuel-zero default is never reached. -/
def collapseCharsF : Nat → List Char → List Char
  | 0, _ => []
  | _, [] => []
  | fuel + 1, c :: rest =>
    if pyIsSpace c then ' ' :: collapseCharsF fuel (rest.dropWhile pyIsSpace)
    else c :: collapseCharsF fuel rest

def collapseChars (cs : List Char) : List Char := collapseCharsF cs.length cs

/-- Python str.strip with no argument: remove whitespace at both ends. -/
def pyStripChars (cs : List Char) : List Char :=
  ((cs.dropWhile pyIsSpace).reverse.dropWhile pyIsSpace).reverse

def summarize_text (text : String) (max_chars : Nat) : String :=
  let clean := pyStripChars (collapseChars text.toList)
  if clean.length ≤ max_chars then String.mk clean
  else String.mk (clean.take (max_chars - 1) ++ ['…'])

/-! ## Character lemmas -/

theorem char_toNat_ofNat_lt (n : ℕ) (h : n < 55296) : (Char.ofNat n).toNat = n := by
  have hv : Nat.isValidChar n := Or.inl h
  simp [Char.ofNat, hv, Char.ofNatAux, Char.toNat, UInt32.toNat]

theorem isUpperAZ_iff (c : Char) : isUpperAZ c = true ↔ (65 ≤ c.toNat ∧ c.toNat ≤ 90) := by
  constructor
  · intro h
    simpa [isUpperAZ, Char.le_def, UInt32.le_def, BitVec.le_def] using h
  · intro h
    simp [isUpperAZ, Char.le_def, UInt32.le_def, BitVec.le_def]
    exact h

theorem isLowerAZ_iff (c : Char) : isLowerAZ c = true ↔ (97 ≤ c.toNat ∧ c.toNat ≤ 122) := by
  constructor
  · intro h
    simpa [isLowerAZ, Char.le_def, UInt32.le_def, BitVec.le_def] using h
  · intro h
    simp [isLowerAZ, Char.le_def, UInt32.le_def, BitVec.le_def]
    exact h

theorem pyLower_not_upper (c : Char) : isUpperAZ (pyLower c) = false := by
  unfold pyLower
  split
  next h =>
    obtain ⟨h1, h2⟩ := (isUpperAZ_iff c).1 h
    have ht : (Char.ofNat (c.toNat + 32)).toNat = c.toNat + 32 :=
      char_toNat_ofNat_lt _ (by omega)
    rw [Bool.eq_false_iff]
    intro hu
    obtain ⟨u1, u2⟩ := (isUpperAZ_iff _).1 hu
    rw [ht] at u1 u2
    omega
  next h => exact Bool.eq_false_iff.mpr h

theorem pyLower_eq_self (c : Char) (h : isUpperAZ c = false) : pyLower c = c := by
  unfold pyLower
  simp [h]

theorem letter_not_upper_lower (c : Char) (hl : isAsciiLetter c = true)
    (hnu : isUpperAZ c = false) : isLowerAZ c = true := by
  simp [isAsciiLetter, hnu] at hl
  exact hl

theorem wordChar_shape (c : Char) (hw : isWordChar c = true) (hnu : isUpperAZ c = false) :
    isLowerAZ c = true ∨ c = '-' ∨ c = '\'' := by
  simp [isWordChar, isAsciiLetter, hnu] at hw
  tauto

theorem lowerAZ_not_upper (c : Char) (h : isLowerAZ c = true) : isUpperAZ c = false := by
  obtain ⟨h1, h2⟩ := (isLowerAZ_iff c).1 h
  rw [Bool.eq_false_iff]
  intro hu
  obtain ⟨u1, u2⟩ := (isUpperAZ_iff c).1 hu
  omega

theorem tokClass_not_upper (c : Char)
    (h : isLowerAZ c = true ∨ c = '-' ∨ c = '\'') : isUpperAZ c = false := by
  rcases h with h | h | h
  · exact lowerAZ_not_upper c h
  · subst h; decide
  · subst h; decide

theorem string_mk_toList (s : String) : String.mk s.toList = s := by
  cases s; rfl

/-! ## Tokenizer lemmas -/

theorem findTokensF_nil (n : Nat) : findTokensF n [] = [] := by
  cases n <;> rfl

theorem findTokensF_shape :
    ∀ (fuel : Nat) (l : List Char), ∀ tok ∈ findTokensF fuel l,
      (∃ c rest2, tok = c :: rest2 ∧ isAsciiLetter c = true ∧ rest2 ≠ [] ∧
        (∀ d ∈ rest2, isWordChar d = true)) ∧
      (∀ d ∈ tok, d ∈ l) := by
  intro fuel
  induction fuel with
  | zero =>
    intro l tok htok
    simp [findTokensF] at htok
  | succ fuel ih =>
    intro l tok htok
    cases l with
    | nil => simp [findTokensF] at htok
    | cons c rest =>
      simp only [findTokensF] at htok
      by_cases hc : isAsciiLetter c = true
      · rw [if_pos hc] at htok
        by_cases ht : rest.takeWhile isWordChar = []
        · rw [if_pos ht] at htok
          obtain ⟨hshape, hmem⟩ := ih rest tok htok
          exact ⟨hshape, fun d hd => List.mem_cons_of_mem c (hmem d hd)⟩
        · rw [if_neg ht] at htok
          rcases List.mem_cons.mp htok with rfl | htok2
          · refine ⟨⟨c, rest.takeWhile isWordChar, rfl, hc, ht,
              fun d hd => List.mem_takeWhile_imp hd⟩, ?_⟩
            intro d hd
            rcases List.mem_cons.mp hd with rfl | hd2
            · exact List.mem_cons_self d rest
            · exact List.mem_cons_of_mem c ((List.takeWhile_sublist isWordChar).subset hd2)
          · obtain ⟨hshape, hmem⟩ := ih _ tok htok2
            exact ⟨hshape, fun d hd => List.mem_cons_of_mem c
              ((List.dropWhile_sublist isWordChar).subset (hmem d hd))⟩
      · rw [if_neg hc] at htok
        obtain ⟨hshape, hmem⟩ := ih rest tok htok
        exact ⟨hshape, fun d hd => List.mem_cons_of_mem c (hmem d hd)⟩

theorem findTokens_shape (l : List Char) :
    ∀ tok ∈ findTokens l,
      (∃ c rest2, tok = c :: rest2 ∧ isAsciiLetter c = true ∧ rest2 ≠ [] ∧
        (∀ d ∈ rest2, isWordChar d = true)) ∧
      (∀ d ∈ tok, d ∈ l) :=
  findTokensF_shape l.length l

/-- The shape of every token produced by tokenize: length at least two, a
lowercase-ASCII-letter head, and all characters lowercase letters, hyphens
or apostrophes. -/
theorem tokenize_shape (s : String) (t : String) (ht : t ∈ tokenize s) :
    2 ≤ t.length ∧
    (∃ c rest2, t.toList = c :: rest2 ∧ isLowerAZ c = true) ∧
    (∀ d ∈ t.toList, isLowerAZ d = true ∨ d = '-' ∨ d = '\'') := by
  obtain ⟨tok, htok, rfl⟩ := List.mem_map.mp ht
  obtain ⟨⟨c, rest2, rfl, hc, hne, hrest⟩, hmem⟩ := findTokens_shape _ tok htok
  have hnu : ∀ d ∈ (c :: rest2 : List Char), isUpperAZ d = false := by
    intro d hd
    obtain ⟨x, _, rfl⟩ := List.mem_map.mp (hmem d hd)
    exact pyLower_not_upper x
  have hcl : isLowerAZ c = true :=
    letter_not_upper_lower c hc (hnu c (List.mem_cons_self c rest2))
  refine ⟨?_, ⟨c, rest2, rfl, hcl⟩, ?_⟩
  · show 2 ≤ (c :: rest2).length
    have := List.length_pos.mpr hne
    simp only [List.length_cons]
    omega
  · intro d hd
    rcases List.mem_cons.mp hd with rfl | hd2
    · exact Or.inl hcl
    · exact wordChar_shape d (hrest d hd2) (hnu d (List.mem_cons_of_mem c hd2))

theorem tokClass_word (c : Char) (h : isLowerAZ c = true ∨ c = '-' ∨ c = '\'') :
    isWordChar c = true := by
  rcases h with h | h | h
  · simp [isWordChar, isAsciiLetter, h]
  · simp [isWordChar, h]
  · simp [isWordChar, h]

/-- A string whose characters all lie in the token character class, with a
letter head and length at least two, re-tokenizes to exactly itself. -/
theorem tokenize_fixed (t : String)
    (hshape : ∃ c rest2, t.toList = c :: rest2 ∧ isLowerAZ c = true)
    (hclass : ∀ d ∈ t.toList, isLowerAZ d = true ∨ d = '-' ∨ d = '\'')
    (h2 : 2 ≤ t.length) : tokenize t = [t] := by
  obtain ⟨c, rest2, hl, hc⟩ := hshape
  have hmap : t.toList.map pyLower = t.toList := by
    have h1 : t.toList.map pyLower = t.toList.map id :=
      List.map_congr_left (fun d hd => pyLower_eq_self d (tokClass_not_upper d (hclass d hd)))
    simpa using h1
  have hcA : isAsciiLetter c = true := by simp [isAsciiLetter, hc]
  have hlen : t.length = (c :: rest2).length := by
    rw [show t.length = t.toList.length from rfl, hl]
  have hne : rest2 ≠ [] := by
    intro hrest
    subst hrest
    simp at hlen
    omega
  have hword : ∀ x ∈ rest2, isWordChar x = true := by
    intro x hx
    exact tokClass_word x (hclass x (hl ▸ List.mem_cons_of_mem c hx))
  have htake : rest2.takeWhile isWordChar = rest2 := List.takeWhile_eq_self_iff.mpr hword
  have hdrop : rest2.dropWhile isWordChar = [] := by
    cases hr : rest2.dropWhile isWordChar with
    | nil => rfl
    | cons x xs =>
      have hx : x ∈ rest2 := (List.dropWhile_sublist isWordChar).subset (hr ▸ List.mem_cons_self x xs)
      have := List.head?_dropWhile_not isWordChar rest2
      rw [hr] at this
      simp at this
      rw [hword x hx] at this
      cases this
  rw [tokenize, hmap, hl]
  show (findTokensF (c :: rest2).length (c :: rest2)).map (fun cs => String.mk cs) = [t]
  rw [show (c :: rest2 : List Char).length = rest2.length + 1 from rfl]
  simp only [findTokensF]
  rw [htake, if_pos hcA, if_neg hne, hdrop, findTokensF_nil]
  simp only [List.map_cons, List.map_nil]
  rw [show (c :: rest2 : List Char) = t.toList from hl.symm, string_mk_toList]

/-- The tokens field of normalize, computed: filter, then lemmatize and
stem each survivor. -/
theorem normalize_tokens_eq (s : String) :
    (normalize_text_for_index s).tokens =
      ((tokenize s).filter
        (fun t => !FALLBACK_STOPWORDS.contains t && decide (1 < t.length))).map
        (fun t => porterStem (wordnetLemmatize t)) := by
  simp only [normalize_text_for_index]
  rw [List.map_map]
  rfl

/-- Normalizing a single tokenizer token yields at most one output token. -/
theorem normalize_single_token (s raw : String) (h : raw ∈ tokenize s) :
    (normalize_text_for_index raw).tokens = [] ∨
    (normalize_text_for_index raw).tokens = [porterStem (wordnetLemmatize raw)] := by
  obtain ⟨h2, hshape, hclass⟩ := tokenize_shape s raw h
  have hfix : tokenize raw = [raw] := tokenize_fixed raw hshape hclass h2
  rw [normalize_tokens_eq, hfix]
  cases hp : (!FALLBACK_STOPWORDS.contains raw && decide (1 < raw.length)) with
  | false =>
    left
    rw [List.filter_cons, hp]
    rfl
  | true =>
    right
    rw [List.filter_cons, hp]
    rfl

/-- C10: for every input string, every token produced by tokenize has
length at least 2, starts with a lowercase ASCII letter, and consists only
of lowercase ASCII letters, hyphens and apostrophes; consequently
single-character words are never tokens and the length-greater-than-one
filter in normalize removes nothing beyond the stopword filter. -/
theorem tokenize_token_invariants (s : String) :
    (∀ t ∈ tokenize s,
        2 ≤ t.length ∧
        (∃ c rest2, t.toList = c :: rest2 ∧ isLowerAZ c = true) ∧
        (∀ d ∈ t.toList, isLowerAZ d = true ∨ d = '-' ∨ d = '\'')) ∧
    (tokenize s).filter (fun t => !FALLBACK_STOPWORDS.contains t && decide (1 < t.length))
      = (tokenize s).filter (fun t => !FALLBACK_STOPWORDS.contains t) := by
  refine ⟨fun t ht => tokenize_shape s t ht, ?_⟩
  apply List.filter_congr
  intro t ht
  have h2 := (tokenize_shape s t ht).1
  have hd : decide (1 < t.length) = true := by
    simp
    omega
  rw [hd, Bool.and_true]

/-- Witness for the tokenizer invariants at a concrete input. -/
theorem tokenize_token_invariants_witness :
    ("ab-c" ∈ tokenize "Ab-c a") ∧
    (2 ≤ ("ab-c" : String).length ∧
      (∃ c rest2, ("ab-c" : String).toList = c :: rest2 ∧ isLowerAZ c = true) ∧
      (∀ d ∈ ("ab-c" : String).toList, isLowerAZ d = true ∨ d = '-' ∨ d = '\'')) :=
  ⟨by decide, (tokenize_token_invariants "Ab-c a").1 "ab-c" (by decide)⟩

/-- C2 (counterexample): on the input feet, normalize does not return the
Porter stems of the filtered tokens; the WordNet lemmatization step maps
feet to foot before stemming, so the output token is foot, not feet. -/
theorem normalize_pure_porter_refuted :
    ¬ ((normalize_text_for_index "feet").tokens =
        ((tokenize "feet").filter
          (fun t => !FALLBACK_STOPWORDS.contains t && decide (1 < t.length))).map
          porterStem) := by
  decide

/-- C2 (amended): normalize returns Porter-stem(WordNet-lemmatize(t)) for
each t in tokenize(s) that is neither a stopword nor of length one, in
order, and joined is the space-separated concatenation of the tokens; a
lemmatization step IS applied before stemming. -/
theorem normalize_lemmatizes_then_stems (s : String) :
    (normalize_text_for_index s).tokens =
      ((tokenize s).filter
        (fun t => !FALLBACK_STOPWORDS.contains t && decide (1 < t.length))).map
        (fun t => porterStem (wordnetLemmatize t)) ∧
    (normalize_text_for_index s).joined =
      String.intercalate " " (normalize_text_for_index s).tokens := by
  exact ⟨normalize_tokens_eq s, rfl⟩

/-! ## summarize_text lemmas -/

theorem dropWhile_of_all_false {p : Char → Bool} (l : List Char)
    (h : ∀ c ∈ l, p c = false) : l.dropWhile p = l := by
  cases l with
  | nil => rfl
  | cons c t =>
    rw [List.dropWhile_cons, h c (List.mem_cons_self c t)]
    simp

theorem collapseCharsF_of_no_space :
    ∀ (fuel : Nat) (cs : List Char), cs.length ≤ fuel →
      (∀ c ∈ cs, pyIsSpace c = false) → collapseCharsF fuel cs = cs := by
  intro fuel
  induction fuel with
  | zero =>
    intro cs hlen _
    rw [List.eq_nil_of_length_eq_zero (Nat.le_zero.mp hlen)]
    rfl
  | succ fuel ih =>
    intro cs hlen h
    cases cs with
    | nil => rfl
    | cons c rest =>
      have hc := h c (List.mem_cons_self c rest)
      simp only [collapseCharsF]
      rw [if_neg (by simp [hc])]
      congr 1
      have hlen2 : rest.length ≤ fuel := by
        simp only [List.length_cons] at hlen
        omega
      exact ih rest hlen2 (fun d hd => h d (List.mem_cons_of_mem c hd))

theorem collapseChars_of_no_space (cs : List Char)
    (h : ∀ c ∈ cs, pyIsSpace c = false) : collapseChars cs = cs :=
  collapseCharsF_of_no_space cs.length cs le_rfl h

theorem pyStripChars_of_no_space (cs : List Char)
    (h : ∀ c ∈ cs, pyIsSpace c = false) : pyStripChars cs = cs := by
  unfold pyStripChars
  rw [dropWhile_of_all_false cs h]
  rw [dropWhile_of_all_false cs.reverse (fun c hc => h c (List.mem_reverse.mp hc))]
  exact List.reverse_reverse cs

/-- C8: summarize_text collapses whitespace runs to single spaces and
trims; if the cleaned text fits in max_chars it is returned unchanged,
otherwise the result is the first max_chars - 1 characters followed by a
horizontal ellipsis, of length exactly max_chars and ending in the
ellipsis character. -/
theorem summarize_text_truncation (s : String) (m : Nat) (hm : 1 ≤ m) :
    summarize_text s m =
      (if (pyStripChars (collapseChars s.toList)).length ≤ m
       then String.mk (pyStripChars (collapseChars s.toList))
       else String.mk ((pyStripChars (collapseChars s.toList)).take (m - 1) ++ ['…'])) ∧
    (m < (pyStripChars (collapseChars s.toList)).length →
      (summarize_text s m).length = m ∧
      (summarize_text s m).toList.getLast? = some '…') := by
  refine ⟨rfl, fun hlt => ?_⟩
  have hnle : ¬ (pyStripChars (collapseChars s.toList)).length ≤ m := by omega
  have he : summarize_text s m =
      String.mk ((pyStripChars (collapseChars s.toList)).take (m - 1) ++ ['…']) := by
    simp only [summarize_text]
    rw [if_neg hnle]
  constructor
  · rw [he]
    show ((pyStripChars (collapseChars s.toList)).take (m - 1) ++ ['…']).length = m
    rw [List.length_append, List.length_take]
    simp only [String.toList] at hlt ⊢
    simp
    omega
  · rw [he]
    exact List.getLast?_concat _

/-- Witness: summarize of one thousand letters a with cap 400 is a
400-character string ending in the ellipsis character. -/
theorem summarize_text_truncation_witness :
    1 ≤ 400 ∧
    ((summarize_text (String.mk (List.replicate 1000 'a')) 400).length = 400 ∧
     (summarize_text (String.mk (List.replicate 1000 'a')) 400).toList.getLast? = some '…') := by
  have hns : ∀ c ∈ List.replicate 1000 'a', pyIsSpace c = false := by
    intro c hc
    rw [List.eq_of_mem_replicate hc]
    decide
  have hclean : pyStripChars (collapseChars (String.mk (List.replicate 1000 'a')).toList)
      = List.replicate 1000 'a' := by
    show pyStripChars (collapseChars (List.replicate 1000 'a')) = _
    rw [collapseChars_of_no_space _ hns, pyStripChars_of_no_space _ hns]
  refine ⟨by omega, (summarize_text_truncation _ 400 (by omega)).2 ?_⟩
  rw [hclean, List.length_replicate]
  omega

/-! ## URLTracker (src/search_engine/url_tracker.py)

The urls collection is a list of records; the unique index on url makes
duplicate urls unreachable, which enters the theorems as a Nodup
hypothesis. Timestamps are abstract naturals. -/

structure UrlRecord where
  url : String
  crawled : Bool
  crawled_at : Option Nat
  final_url : Option String
  created_at : Nat
  updated_at : Nat
deriving DecidableEq

/-- One updateOne operation of add_urls_to_queue, with upsert: the update
sets url, crawled false and updated_at on the first record matching the
filter; if none matches, a record is inserted carrying additionally the
on-insert created_at. -/
def enqueueOne (now : Nat) (u : String) : List UrlRecord → List UrlRecord
  | [] => [{ url := u, crawled := false, crawled_at := none, final_url := none,
             created_at := now, updated_at := now }]
  | r :: rest =>
    if r.url = u then
      { r with url := u, crawled := false, updated_at := now } :: rest
    else r :: enqueueOne now u rest

/-- add_urls_to_queue: no-op on an empty list, otherwise one upsert per
url. bulk_write is called with ordered false; operations of one call
target their urls independently, so they are folded in list order. -/
def add_urls_to_queue (now : Nat) (urls : List String) (col : List UrlRecord) :
    List UrlRecord :=
  if urls = [] then col else urls.foldl (fun c u => enqueueOne now u c) col

theorem enqueueOne_urls (now : Nat) (u : String) (col : List UrlRecord) :
    (enqueueOne now u col).map UrlRecord.url =
      (if u ∈ col.map UrlRecord.url then col.map UrlRecord.url
       else col.map UrlRecord.url ++ [u]) := by
  induction col with
  | nil => simp [enqueueOne]
  | cons r rest ih =>
    by_cases hr : r.url = u
    · simp [enqueueOne, hr]
    · simp only [enqueueOne, if_neg hr, List.map_cons, ih]
      by_cases hmem : u ∈ rest.map UrlRecord.url
      · rw [if_pos hmem, if_pos (List.mem_cons_of_mem _ hmem)]
      · rw [if_neg hmem, if_neg ?_]
        · simp
        · intro hc
          rcases List.mem_cons.mp hc with hc1 | hc2
          · exact hr hc1.symm
          · exact hmem hc2

theorem enqueueOne_nodup (now : Nat) (u : String) (col : List UrlRecord)
    (hnd : (col.map UrlRecord.url).Nodup) :
    ((enqueueOne now u col).map UrlRecord.url).Nodup := by
  rw [enqueueOne_urls]
  by_cases hmem : u ∈ col.map UrlRecord.url
  · rwa [if_pos hmem]
  · rw [if_neg hmem]
    exact hnd.append (List.nodup_singleton u)
      (fun a ha hb => hmem ((List.mem_singleton.mp hb) ▸ ha))

theorem enqueueOne_spec (now : Nat) (u : String) (col : List UrlRecord)
    (hnd : (col.map UrlRecord.url).Nodup) :
    ∀ r ∈ enqueueOne now u col,
      (r.url = u → r.crawled = false) ∧ (r.url ≠ u → r ∈ col) := by
  induction col with
  | nil =>
    intro r hr
    simp only [enqueueOne, List.mem_singleton] at hr
    subst hr
    exact ⟨fun _ => rfl, fun h => absurd rfl h⟩
  | cons r0 rest ih =>
    intro r hr
    by_cases h0 : r0.url = u
    · rw [enqueueOne, if_pos h0] at hr
      rcases List.mem_cons.mp hr with rfl | hr2
      · exact ⟨fun _ => rfl, fun h => absurd rfl h⟩
      · constructor
        · intro hu
          exfalso
          simp only [List.map_cons, List.nodup_cons] at hnd
          exact hnd.1 (h0 ▸ hu ▸ List.mem_map_of_mem UrlRecord.url hr2)
        · intro _
          exact List.mem_cons_of_mem r0 hr2
    · rw [enqueueOne, if_neg h0] at hr
      rcases List.mem_cons.mp hr with rfl | hr2
      · exact ⟨fun hu => absurd hu h0, fun _ => List.mem_cons_self r rest⟩
      · simp only [List.map_cons, List.nodup_cons] at hnd
        obtain ⟨h1, h2⟩ := ih hnd.2 r hr2
        exact ⟨h1, fun hne => List.mem_cons_of_mem r0 (h2 hne)⟩

theorem foldl_enqueue_spec (now : Nat) :
    ∀ (urls : List String) (col : List UrlRecord),
      (col.map UrlRecord.url).Nodup →
      ∀ r ∈ urls.foldl (fun c u => enqueueOne now u c) col,
        (r.url ∈ urls → r.crawled = false) ∧ (r.url ∉ urls → r ∈ col) := by
  intro urls
  induction urls with
  | nil =>
    intro col _ r hr
    exact ⟨fun h => absurd h (List.not_mem_nil _), fun _ => hr⟩
  | cons u us ih =>
    intro col hnd r hr
    rw [List.foldl_cons] at hr
    obtain ⟨ih1, ih2⟩ := ih (enqueueOne now u col) (enqueueOne_nodup now u col hnd) r hr
    constructor
    · intro hmem
      by_cases hus : r.url ∈ us
      · exact ih1 hus
      · have hcol : r ∈ enqueueOne now u col := ih2 hus
        have hu : r.url = u := by
          rcases List.mem_cons.mp hmem with h | h
          · exact h
          · exact absurd h hus
        exact (enqueueOne_spec now u col hnd r hcol).1 hu
    · intro hmem
      have hus : r.url ∉ us := fun h => hmem (List.mem_cons_of_mem u h)
      have hu : r.url ≠ u := fun h => hmem (h ▸ List.mem_cons_self u us)
      exact (enqueueOne_spec now u col hnd r (ih2 hus)).2 hu

/-- The concrete collection holding one already-crawled record. -/
def demoUrlCol : List UrlRecord :=
  [{ url := "u", crawled := true, crawled_at := some 0, final_url := none,
     created_at := 0, updated_at := 0 }]

/-- C1 (counterexample): the record for url u is crawled before
add_urls_to_queue and uncrawled after it: the update clause of the upsert
puts crawled false in the set part, not in the on-insert part, so an
existing record does not keep its crawled value. -/
theorem enqueue_resets_crawled_counterexample :
    ((demoUrlCol.find? (fun r => r.url = "u")).map UrlRecord.crawled = some true) ∧
    (((add_urls_to_queue 1 ["u"] demoUrlCol).find? (fun r => r.url = "u")).map
        UrlRecord.crawled = some false) := by
  decide

/-- C1 (amended): add_urls_to_queue sets crawled false on every record
whose url is in the enqueued list, inserted or pre-existing, and leaves
all other records untouched; in particular enqueueing an already-crawled
url resets its crawled flag to false. -/
theorem add_urls_to_queue_sets_uncrawled (now : Nat) (urls : List String)
    (col : List UrlRecord) (hnd : (col.map UrlRecord.url).Nodup) :
    ∀ r ∈ add_urls_to_queue now urls col,
      (r.url ∈ urls → r.crawled = false) ∧ (r.url ∉ urls → r ∈ col) := by
  rw [add_urls_to_queue]
  by_cases hu : urls = []
  · rw [if_pos hu]
    intro r hr
    subst hu
    exact ⟨fun h => absurd h (List.not_mem_nil _), fun _ => hr⟩
  · rw [if_neg hu]
    exact foldl_enqueue_spec now urls col hnd

/-- Witness: the amended enqueue behavior at the concrete collection. -/
theorem add_urls_to_queue_sets_uncrawled_witness :
    (demoUrlCol.map UrlRecord.url).Nodup ∧
    (∀ r ∈ add_urls_to_queue 1 ["u"] demoUrlCol,
      (r.url ∈ ["u"] → r.crawled = false) ∧ (r.url ∉ ["u"] → r ∈ demoUrlCol)) :=
  ⟨by decide, add_urls_to_queue_sets_uncrawled 1 ["u"] demoUrlCol (by decide)⟩

/-! ## ContentFetcher batch loops (src/search_engine/fetch_contents.py and
src/run_fetch_contents.py)

Only the schedule of batches and sleeps is at issue; fetching, writing and
crawl-marking do not affect it and are abstracted out of the trace. A zero
batch size makes range raise in Python and is modelled as an empty trace,
outside every claim. The fuel (the number of uncrawled urls suffices, as
every batch consumes at least one) keeps the recursion structural. -/

inductive FetchEvent where
  | batch (urls : List String)
  | sleep
deriving DecidableEq

def isSleepEv : FetchEvent → Bool
  | FetchEvent.sleep => true
  | FetchEvent.batch _ => false

def isBatchEv : FetchEvent → Bool
  | FetchEvent.sleep => false
  | FetchEvent.batch _ => true

def numSleeps (tr : List FetchEvent) : Nat := (tr.filter isSleepEv).length

def numBatches (tr : List FetchEvent) : Nat := (tr.filter isBatchEv).length

/-- The loop of fetch_content_from_database: each iteration fetches the
batch uncrawled[i : i + batch_size] and then, when CRAWL_DELAY_SECS is
positive, sleeps -- with no exception for the last batch. -/
def contentFetchLoopF : Nat → Bool → Nat → List String → List FetchEvent
  | 0, _, _, _ => []
  | _, _, _, [] => []
  | fuel + 1, delayPos, bs, l =>
    if bs = 0 then []
    else
      FetchEvent.batch (l.take bs) ::
        ((if delayPos then [FetchEvent.sleep] else []) ++
          contentFetchLoopF fuel delayPos bs (l.drop bs))

def contentFetchLoop (delayPos : Bool) (bs : Nat) (l : List String) : List FetchEvent :=
  contentFetchLoopF l.length delayPos bs l

/-- The loop of run_fetch_contents.main: identical batching, but the sleep
is additionally guarded by i + batch_size < len(uncrawled), that is, it is
skipped after the last batch. -/
def mainFetchLoopF : Nat → Bool → Nat → List String → List FetchEvent
  | 0, _, _, _ => []
  | _, _, _, [] => []
  | fuel + 1, delayPos, bs, l =>
    if bs = 0 then []
    else
      FetchEvent.batch (l.take bs) ::
        ((if delayPos ∧ l.drop bs ≠ [] then [FetchEvent.sleep] else []) ++
          mainFetchLoopF fuel delayPos bs (l.drop bs))

def mainFetchLoop (delayPos : Bool) (bs : Nat) (l : List String) : List FetchEvent :=
  mainFetchLoopF l.length delayPos bs l

theorem numSleeps_cons (e : FetchEvent) (tr : List FetchEvent) :
    numSleeps (e :: tr) = (if isSleepEv e = true then 1 else 0) + numSleeps tr := by
  simp only [numSleeps, List.filter_cons]
  split
  · simp [Nat.add_comm]
  · simp

theorem numBatches_cons (e : FetchEvent) (tr : List FetchEvent) :
    numBatches (e :: tr) = (if isBatchEv e = true then 1 else 0) + numBatches tr := by
  simp only [numBatches, List.filter_cons]
  split
  · simp [Nat.add_comm]
  · simp

theorem contentFetchLoopF_sleeps (bs : Nat) (hbs : 1 ≤ bs) :
    ∀ (fuel : Nat) (l : List String), l.length ≤ fuel →
      numSleeps (contentFetchLoopF fuel true bs l) =
        numBatches (contentFetchLoopF fuel true bs l) := by
  intro fuel
  induction fuel with
  | zero =>
    intro l _
    simp [contentFetchLoopF, numSleeps, numBatches]
  | succ fuel ih =>
    intro l hlen
    cases l with
    | nil => rfl
    | cons x xs =>
      simp only [contentFetchLoopF, if_neg (by omega : ¬ bs = 0), if_true,
        List.cons_append, List.nil_append]
      have hrec := ih ((x :: xs).drop bs) (by
        rw [List.length_drop]
        simp only [List.length_cons] at hlen ⊢
        omega)
      rw [numSleeps_cons, numSleeps_cons, numBatches_cons, numBatches_cons]
      simp only [isSleepEv, isBatchEv]
      omega

theorem mainFetchLoopF_batch_pos (bs : Nat) (hbs : 1 ≤ bs) :
    ∀ (fuel : Nat) (l : List String), l.length ≤ fuel → l ≠ [] →
      1 ≤ numBatches (mainFetchLoopF fuel true bs l) := by
  intro fuel
  cases fuel with
  | zero =>
    intro l hlen hne
    exact absurd (List.eq_nil_of_length_eq_zero (Nat.le_zero.mp hlen)) hne
  | succ fuel =>
    intro l hlen hne
    cases l with
    | nil => exact absurd rfl hne
    | cons x xs =>
      simp only [mainFetchLoopF, if_neg (by omega : ¬ bs = 0)]
      simp [numBatches, List.filter, isBatchEv]

theorem mainFetchLoopF_empty (fuel : Nat) (delayPos : Bool) (bs : Nat) :
    mainFetchLoopF fuel delayPos bs [] = [] := by
  cases fuel <;> rfl

theorem mainFetchLoopF_sleeps (bs : Nat) (hbs : 1 ≤ bs) :
    ∀ (fuel : Nat) (l : List String), l.length ≤ fuel →
      numSleeps (mainFetchLoopF fuel true bs l) =
        numBatches (mainFetchLoopF fuel true bs l) - 1 := by
  intro fuel
  induction fuel with
  | zero =>
    intro l _
    simp [mainFetchLoopF, numSleeps, numBatches]
  | succ fuel ih =>
    intro l hlen
    cases l with
    | nil => rfl
    | cons x xs =>
      have hdlen : ((x :: xs).drop bs).length ≤ fuel := by
        rw [List.length_drop]
        simp only [List.length_cons] at hlen ⊢
        omega
      simp only [mainFetchLoopF, if_neg (by omega : ¬ bs = 0)]
      by_cases hdrop : (x :: xs).drop bs = []
      · rw [if_neg (by simp [hdrop])]
        rw [hdrop, mainFetchLoopF_empty]
        rfl
      · rw [if_pos ⟨trivial, hdrop⟩]
        have hrec := ih ((x :: xs).drop bs) hdlen
        have hpos := mainFetchLoopF_batch_pos bs hbs fuel ((x :: xs).drop bs) hdlen hdrop
        simp only [List.cons_append, List.nil_append]
        rw [numSleeps_cons, numSleeps_cons, numBatches_cons, numBatches_cons]
        simp only [isSleepEv, isBatchEv]
        omega

/-- C9 (counterexample): with a positive delay, one uncrawled url and
batch size 100, the loop of fetch_content_from_database runs one batch and
sleeps once, not zero times: the sleep is not skipped after the last
batch. -/
theorem content_fetch_sleeps_after_last_batch :
    numBatches (contentFetchLoop true 100 ["u"]) = 1 ∧
    numSleeps (contentFetchLoop true 100 ["u"]) = 1 ∧
    (1 : Nat) ≠ 1 - 1 := by
  decide

/-- C9 (amended): when CRAWL_DELAY_SECS is positive, the batch loop of
fetch_content_from_database sleeps after every batch, including the last:
k sleeps for k batches. The sleep-skipped-after-the-last-batch schedule (k
- 1 sleeps for k batches) is the one implemented by the CLI loop of
run_fetch_contents.main. -/
theorem fetch_loop_sleep_counts (bs : Nat) (l : List String) (hbs : 1 ≤ bs) :
    numSleeps (contentFetchLoop true bs l) = numBatches (contentFetchLoop true bs l) ∧
    numSleeps (mainFetchLoop true bs l) = numBatches (mainFetchLoop true bs l) - 1 :=
  ⟨contentFetchLoopF_sleeps bs hbs l.length l le_rfl,
   mainFetchLoopF_sleeps bs hbs l.length l le_rfl⟩

/-- Witness: the sleep counts at batch size 2 over three urls. -/
theorem fetch_loop_sleep_counts_witness :
    1 ≤ 2 ∧
    (numSleeps (contentFetchLoop true 2 ["a", "b", "c"]) =
        numBatches (contentFetchLoop true 2 ["a", "b", "c"]) ∧
      numSleeps (mainFetchLoop true 2 ["a", "b", "c"]) =
        numBatches (mainFetchLoop true 2 ["a", "b", "c"]) - 1) :=
  ⟨by decide, fetch_loop_sleep_counts 2 ["a", "b", "c"] (by decide)⟩

/-! ## Dictionary lemmas -/

theorem dictFind?_dictSet_self {α : Type} (m : List (String × α)) (k : String) (v : α) :
    dictFind? (dictSet m k v) k = some v := by
  induction m with
  | nil => simp [dictSet, dictFind?]
  | cons kv rest ih =>
    by_cases h : kv.1 = k
    · simp [dictSet, h, dictFind?]
    · simp only [dictSet, if_neg h, dictFind?] at ih ⊢
      rw [List.find?_cons_of_neg _ (by simpa using h)]
      exact ih

theorem dictFind?_dictSet_ne {α : Type} (m : List (String × α)) (k k' : String) (v : α)
    (h : k' ≠ k) : dictFind? (dictSet m k v) k' = dictFind? m k' := by
  induction m with
  | nil =>
    simp only [dictSet, dictFind?]
    rw [List.find?_cons_of_neg _ (by simpa using fun (he : k = k') => h he.symm)]
  | cons kv rest ih =>
    by_cases hk : kv.1 = k
    · simp only [dictSet, if_pos hk, dictFind?]
      rw [List.find?_cons_of_neg _ (by simpa using fun (he : k = k') => h he.symm),
        List.find?_cons_of_neg _ (by simpa using fun (he : kv.1 = k') => h (he ▸ hk))]
    · simp only [dictSet, if_neg hk, dictFind?] at ih ⊢
      by_cases hk' : kv.1 = k'
      · rw [List.find?_cons_of_pos _ (by simpa using hk'),
          List.find?_cons_of_pos _ (by simpa using hk')]
      · rw [List.find?_cons_of_neg _ (by simpa using hk'),
          List.find?_cons_of_neg _ (by simpa using hk')]
        exact ih

theorem dictSet_keys {α : Type} (m : List (String × α)) (k : String) (v : α) :
    (dictSet m k v).map Prod.fst =
      (if k ∈ m.map Prod.fst then m.map Prod.fst else m.map Prod.fst ++ [k]) := by
  induction m with
  | nil => simp [dictSet]
  | cons kv rest ih =>
    by_cases hk : kv.1 = k
    · simp [dictSet, hk]
    · simp only [dictSet, if_neg hk, List.map_cons, ih]
      by_cases hmem : k ∈ rest.map Prod.fst
      · rw [if_pos hmem, if_pos (List.mem_cons_of_mem _ hmem)]
      · rw [if_neg hmem, if_neg ?_]
        · simp
        · intro hc
          rcases List.mem_cons.mp hc with hc1 | hc2
          · exact hk hc1.symm
          · exact hmem hc2

theorem dictSet_nodupkeys {α : Type} (m : List (String × α)) (k : String) (v : α)
    (h : (m.map Prod.fst).Nodup) : ((dictSet m k v).map Prod.fst).Nodup := by
  rw [dictSet_keys]
  by_cases hmem : k ∈ m.map Prod.fst
  · rwa [if_pos hmem]
  · rw [if_neg hmem]
    exact h.append (List.nodup_singleton k)
      (fun a ha hb => hmem ((List.mem_singleton.mp hb) ▸ ha))

theorem mem_dict_lookup {α : Type} (m : List (String × α))
    (h : (m.map Prod.fst).Nodup) (k : String) (v : α) (hm : (k, v) ∈ m) :
    dictFind? m k = some v := by
  induction m with
  | nil => cases hm
  | cons kv rest ih =>
    simp only [List.map_cons, List.nodup_cons] at h
    rcases List.mem_cons.mp hm with rfl | hm2
    · simp [dictFind?, List.find?]
    · have hne : kv.1 ≠ k := by
        intro he
        exact h.1 (he ▸ List.mem_map_of_mem Prod.fst hm2)
      simp only [dictFind?]
      rw [List.find?_cons_of_neg _ (by simpa using hne)]
      exact ih h.2 hm2

/-! ## Indexer (src/search_engine/indexer.py) -/

structure PostingRec where
  term : String
  doc_url : Option String
  tf : Int
  positions : List Nat
deriving DecidableEq

/-- The loop of _build_postings: for idx, raw in enumerate(text_tokens),
re-normalize the raw token; when the result is empty (stopword or too
short) skip, else count the single stemmed token and append the raw index
to its positions. -/
def postingsLoop : List String → Nat → List (String × Int) → List (String × List Nat) →
    (List (String × Int)) × (List (String × List Nat))
  | [], _, freqs, pos => (freqs, pos)
  | raw :: rest, i, freqs, pos =>
    match (normalize_text_for_index raw).tokens with
    | [] => postingsLoop rest (i + 1) freqs pos
    | t :: _ =>
      postingsLoop rest (i + 1)
        (dictSet freqs t ((dictFind? freqs t).getD 0 + 1))
        (dictSet pos t ((dictFind? pos t).getD [] ++ [i]))

def _build_postings (text : String) :
    (List (String × Int)) × (List (String × List Nat)) :=
  postingsLoop (tokenize (pyLowerS text)) 0 [] []

/-- _bulk_upsert_postings: one posting upsert per term of the frequency
dict, keyed by (term, url), setting tf and the positions list (defaulting
to empty when the term is missing from the positions dict). The records
written are returned. -/
def _bulk_upsert_postings (url : String) (freqs : List (String × Int))
    (pos : List (String × List Nat)) : List PostingRec :=
  freqs.map (fun kv =>
    { term := kv.1, doc_url := some url, tf := kv.2,
      positions := (dictFind? pos kv.1).getD [] })

/-- The positions that the indexing loop assigns to the term t over the
suffix raws of the token stream starting at index i. -/
def posSpecFrom (i : Nat) (raws : List String) (t : String) : List Nat :=
  ((raws.enumFrom i).filter
    (fun it => (normalize_text_for_index it.2).tokens.head? = some t)).map
    (fun it => it.1)

def optAppend (cur : Option (List Nat)) (l : List Nat) : Option (List Nat) :=
  match cur, l with
  | none, [] => none
  | none, l => some l
  | some c, l => some (c ++ l)

def optAddCount (cur : Option Int) (n : Nat) : Option Int :=
  match cur, n with
  | none, 0 => none
  | none, n => some (n : Int)
  | some c, n => some (c + (n : Int))

theorem posSpecFrom_cons (i : Nat) (raw : String) (raws : List String) (t : String) :
    posSpecFrom i (raw :: raws) t =
      (if (normalize_text_for_index raw).tokens.head? = some t then [i] else []) ++
        posSpecFrom (i + 1) raws t := by
  simp only [posSpecFrom, List.enumFrom, List.filter_cons]
  by_cases h : (normalize_text_for_index raw).tokens.head? = some t
  · rw [if_pos (by simpa using h), if_pos h]
    simp
  · rw [if_neg (by simpa using h), if_neg h]
    simp

theorem postingsLoop_spec (t : String) :
    ∀ (raws : List String) (i : Nat) (freqs : List (String × Int))
      (pos : List (String × List Nat)),
      dictFind? (postingsLoop raws i freqs pos).1 t
        = optAddCount (dictFind? freqs t) (posSpecFrom i raws t).length ∧
      dictFind? (postingsLoop raws i freqs pos).2 t
        = optAppend (dictFind? pos t) (posSpecFrom i raws t) := by
  intro raws
  induction raws with
  | nil =>
    intro i freqs pos
    have hspec : posSpecFrom i [] t = [] := by simp [posSpecFrom, List.enumFrom]
    rw [hspec]
    constructor
    · show dictFind? freqs t = optAddCount (dictFind? freqs t) 0
      cases hf : dictFind? freqs t with
      | none => rfl
      | some c => simp [optAddCount]
    · show dictFind? pos t = optAppend (dictFind? pos t) []
      cases hp : dictFind? pos t with
      | none => rfl
      | some c => simp [optAppend]
  | cons raw rest ih =>
    intro i freqs pos
    cases hn : (normalize_text_for_index raw).tokens with
    | nil =>
      rw [posSpecFrom_cons, hn]
      rw [if_neg (by simp)]
      have hloop : postingsLoop (raw :: rest) i freqs pos
          = postingsLoop rest (i + 1) freqs pos := by
        simp only [postingsLoop, hn]
      rw [hloop, List.nil_append]
      exact ih (i + 1) freqs pos
    | cons t0 ts =>
      rw [posSpecFrom_cons, hn]
      have hloop : postingsLoop (raw :: rest) i freqs pos =
          postingsLoop rest (i + 1)
            (dictSet freqs t0 ((dictFind? freqs t0).getD 0 + 1))
            (dictSet pos t0 ((dictFind? pos t0).getD [] ++ [i])) := by
        simp only [postingsLoop, hn]
      rw [hloop]
      obtain ⟨ih1, ih2⟩ := ih (i + 1) (dictSet freqs t0 ((dictFind? freqs t0).getD 0 + 1))
        (dictSet pos t0 ((dictFind? pos t0).getD [] ++ [i]))
      by_cases ht : t0 = t
      · subst ht
        rw [if_pos (by simp)]
        constructor
        · rw [ih1, dictFind?_dictSet_self]
          cases hf : dictFind? freqs t0 with
          | none =>
            simp only [Option.getD_none, Option.getD_some, optAddCount,
              List.singleton_append, List.length_cons, Option.some.injEq]
            push_cast
            omega
          | some c =>
            simp only [Option.getD_none, Option.getD_some, optAddCount,
              List.singleton_append, List.length_cons, Option.some.injEq]
            push_cast
            omega
        · rw [ih2, dictFind?_dictSet_self]
          cases hp : dictFind? pos t0 with
          | none =>
            simp [optAppend]
          | some c =>
            simp [optAppend]
      · rw [if_neg (by simpa using ht)]
        have hne : t ≠ t0 := fun he => ht he.symm
        rw [List.nil_append]
        constructor
        · rw [ih1, dictFind?_dictSet_ne _ _ _ _ hne]
        · rw [ih2, dictFind?_dictSet_ne _ _ _ _ hne]

theorem postingsLoop_nodupkeys :
    ∀ (raws : List String) (i : Nat) (freqs : List (String × Int))
      (pos : List (String × List Nat)),
      (freqs.map Prod.fst).Nodup → (pos.map Prod.fst).Nodup →
      ((postingsLoop raws i freqs pos).1.map Prod.fst).Nodup ∧
      ((postingsLoop raws i freqs pos).2.map Prod.fst).Nodup := by
  intro raws
  induction raws with
  | nil =>
    intro i freqs pos hf hp
    exact ⟨hf, hp⟩
  | cons raw rest ih =>
    intro i freqs pos hf hp
    cases hn : (normalize_text_for_index raw).tokens with
    | nil =>
      have hloop : postingsLoop (raw :: rest) i freqs pos
          = postingsLoop rest (i + 1) freqs pos := by
        simp only [postingsLoop, hn]
      rw [hloop]
      exact ih (i + 1) freqs pos hf hp
    | cons t0 ts =>
      have hloop : postingsLoop (raw :: rest) i freqs pos =
          postingsLoop rest (i + 1)
            (dictSet freqs t0 ((dictFind? freqs t0).getD 0 + 1))
            (dictSet pos t0 ((dictFind? pos t0).getD [] ++ [i])) := by
        simp only [postingsLoop, hn]
      rw [hloop]
      exact ih (i + 1) _ _ (dictSet_nodupkeys _ _ _ hf) (dictSet_nodupkeys _ _ _ hp)

theorem posSpecFrom_pairwise (i : Nat) (raws : List String) (t : String) :
    (posSpecFrom i raws t).Pairwise (· < ·) := by
  have h0 : ((List.enumFrom i raws).map Prod.fst).Pairwise (· < ·) := by
    rw [List.enumFrom_map_fst]
    exact List.pairwise_lt_range' i raws.length
  have h1 : (List.enumFrom i raws).Pairwise (fun a b => a.1 < b.1) :=
    List.pairwise_map.mp h0
  have h2 := List.Pairwise.sublist (List.filter_sublist (l := List.enumFrom i raws)
    (p := fun it => (normalize_text_for_index it.2).tokens.head? = some t)) h1
  exact List.pairwise_map.mpr h2

/-- On the tokens of a page, matching the head of the normalized single
token is the same as being exactly that singleton. -/
theorem enum_pred_equiv (text t : String) :
    ∀ it ∈ (tokenize (pyLowerS text)).enum,
      ((normalize_text_for_index it.2).tokens.head? = some t)
        ↔ ((normalize_text_for_index it.2).tokens = [t]) := by
  intro it hit
  have hsnd : it.2 ∈ tokenize (pyLowerS text) := by
    have h1 : it.2 ∈ ((tokenize (pyLowerS text)).enum).map Prod.snd :=
      List.mem_map_of_mem Prod.snd hit
    rwa [show (tokenize (pyLowerS text)).enum = List.enumFrom 0 (tokenize (pyLowerS text))
      from rfl, List.enumFrom_map_snd] at h1
  rcases normalize_single_token (pyLowerS text) it.2 hsnd with hz | hz
  · rw [hz]
    simp
  · rw [hz]
    simp

/-- C7: every posting produced by _build_postings and written by
_bulk_upsert_postings has strictly increasing non-negative positions, tf
equal to the number of positions, and positions exactly the indices of the
raw tokens of the page text whose single normalized token equals the
posting term. -/
theorem build_postings_invariants (text url : String) :
    ∀ p ∈ _bulk_upsert_postings url (_build_postings text).1 (_build_postings text).2,
      p.positions.Pairwise (· < ·) ∧
      (∀ i ∈ p.positions, 0 ≤ i) ∧
      p.tf = (p.positions.length : Int) ∧
      p.positions = ((tokenize (pyLowerS text)).enum.filter
        (fun it => (normalize_text_for_index it.2).tokens = [p.term])).map
        (fun it => it.1) := by
  intro p hp
  obtain ⟨kv, hkv, rfl⟩ := List.mem_map.mp hp
  have hnodup := postingsLoop_nodupkeys (tokenize (pyLowerS text)) 0 [] []
    (by simp) (by simp)
  have hlookupF : dictFind? (_build_postings text).1 kv.1 = some kv.2 :=
    mem_dict_lookup _ hnodup.1 kv.1 kv.2 hkv
  obtain ⟨hs1, hs2⟩ := postingsLoop_spec kv.1 (tokenize (pyLowerS text)) 0 [] []
  rw [show dictFind? ([] : List (String × Int)) kv.1 = none from rfl] at hs1
  rw [show dictFind? ([] : List (String × List Nat)) kv.1 = none from rfl] at hs2
  have hs1' : optAddCount none (posSpecFrom 0 (tokenize (pyLowerS text)) kv.1).length
      = some kv.2 := by
    rw [← hs1]
    exact hlookupF
  have hlen : (posSpecFrom 0 (tokenize (pyLowerS text)) kv.1).length ≠ 0 := by
    intro h0
    rw [h0] at hs1'
    cases hs1'
  have hval : kv.2 = ((posSpecFrom 0 (tokenize (pyLowerS text)) kv.1).length : Int) := by
    cases hn : (posSpecFrom 0 (tokenize (pyLowerS text)) kv.1).length with
    | zero => exact absurd hn hlen
    | succ n =>
      rw [hn] at hs1'
      simp only [optAddCount] at hs1'
      exact (Option.some.inj hs1').symm
  have hspec_ne : posSpecFrom 0 (tokenize (pyLowerS text)) kv.1 ≠ [] := by
    intro h0
    exact hlen (by rw [h0]; rfl)
  have hs2' : dictFind? (_build_postings text).2 kv.1
      = some (posSpecFrom 0 (tokenize (pyLowerS text)) kv.1) := by
    rw [show (_build_postings text).2
      = (postingsLoop (tokenize (pyLowerS text)) 0 [] []).2 from rfl, hs2]
    cases hc : posSpecFrom 0 (tokenize (pyLowerS text)) kv.1 with
    | nil => exact absurd hc hspec_ne
    | cons x xs => rfl
  have hposval : (dictFind? (_build_postings text).2 kv.1).getD []
      = posSpecFrom 0 (tokenize (pyLowerS text)) kv.1 := by
    rw [hs2']
    rfl
  refine ⟨?_, ?_, ?_, ?_⟩
  · show ((dictFind? (_build_postings text).2 kv.1).getD []).Pairwise (· < ·)
    rw [hposval]
    exact posSpecFrom_pairwise 0 _ kv.1
  · intro i _
    exact Nat.zero_le i
  · show kv.2 = (((dictFind? (_build_postings text).2 kv.1).getD []).length : Int)
    rw [hposval]
    exact hval
  · show (dictFind? (_build_postings text).2 kv.1).getD []
      = ((tokenize (pyLowerS text)).enum.filter
          (fun it => (normalize_text_for_index it.2).tokens = [kv.1])).map (fun it => it.1)
    rw [hposval, posSpecFrom]
    congr 1
    apply List.filter_congr
    intro it hit
    have := enum_pred_equiv text kv.1 it hit
    simp only [decide_eq_decide]
    exact this

/-! ## Searcher (src/run_search.py)

The documents and postings collections are lists of records. Every
document written by the indexer carries content_length, so the field is
total here; title, text_excerpt and final_url may be absent and the search
code defaults them. Python floats are modelled as real numbers, so the
scoring definitions are noncomputable; all guards and collection plumbing
remain computable. -/

structure DocumentRec where
  url : String
  final_url : Option String
  title : Option String
  text_excerpt : Option String
  content_length : Int
deriving DecidableEq

structure Db where
  documents : List DocumentRec
  postings : List PostingRec
deriving DecidableEq

noncomputable def bm25_k1 : ℝ := 3 / 2

noncomputable def bm25_b : ℝ := 3 / 4

/-- _bm25_score: zero on non-positive tf, df or N; otherwise the smoothed
idf times the saturation term. The length normalization divides dl by
(avgdl or 1.0), that is by avgdl itself unless avgdl is zero. -/
noncomputable def _bm25_score (tf df dl N : Int) (avgdl : ℝ) : ℝ :=
  if tf ≤ 0 ∨ df ≤ 0 ∨ N ≤ 0 then 0
  else
    let idf0 : ℝ := max 0 (((N : ℝ) - (df : ℝ) + 1 / 2) / ((df : ℝ) + 1 / 2))
    let idf : ℝ := Real.log (1 + idf0)
    let K : ℝ := bm25_k1 * (1 - bm25_b + bm25_b *
      ((dl : ℝ) / (if avgdl = 0 then 1 else avgdl)))
    idf * (((tf : ℝ) * (bm25_k1 + 1)) / ((tf : ℝ) + K))

/-- _get_corpus_stats: the document count and the average content_length
(zero when there are no documents). -/
noncomputable def corpusStats (db : Db) : Nat × ℝ :=
  let N := db.documents.length
  let avgdl : ℝ :=
    if 0 < N
    then ((db.documents.map (fun d => (d.content_length : ℝ))).sum) / (N : ℝ)
    else 0
  (N, avgdl)

/-- dict.fromkeys on the normalized query tokens: order-preserving
deduplication keeping first occurrences. -/
def dedupAux : List String → List String → List String
  | _, [] => []
  | seen, x :: xs => if x ∈ seen then dedupAux seen xs else x :: dedupAux (x :: seen) xs

def dedupKeepFirst (l : List String) : List String := dedupAux [] l

def searchTerms (q : String) : List String :=
  dedupKeepFirst (normalize_text_for_index q).tokens

def dfOf (db : Db) (t : String) : Nat :=
  (db.postings.filter (fun p => p.term = t)).length

structure SearchState where
  doc_scores : List (String × ℝ)
  doc_lengths : List (String × Int)
  doc_matched : List (String × List String)

def initState : SearchState := ⟨[], [], []⟩

/-- content_length of the document with the given url, 0 when the document
is absent (or the stored value is falsy). -/
def docFindLen (db : Db) (u : String) : Int :=
  match db.documents.find? (fun d => d.url = u) with
  | none => 0
  | some d => d.content_length

/-- The body of the inner posting loop: skip falsy doc_url or non-positive
tf, cache the document length, accumulate the score and record the matched
term. -/
noncomputable def processPosting (db : Db) (N : Int) (avgdl : ℝ) (df : Nat) (t : String)
    (st : SearchState) (p : PostingRec) : SearchState :=
  match p.doc_url with
  | none => st
  | some u =>
    if u = "" ∨ p.tf ≤ 0 then st
    else
      let cached := dictFind? st.doc_lengths u
      let dl := cached.getD (docFindLen db u)
      let lengths := if cached.isSome then st.doc_lengths
                     else dictSet st.doc_lengths u (docFindLen db u)
      { doc_scores := dictSet st.doc_scores u
          ((dictFind? st.doc_scores u).getD 0 + _bm25_score p.tf (df : Int) dl N avgdl),
        doc_lengths := lengths,
        doc_matched := dictSet st.doc_matched u
          (setAdd ((dictFind? st.doc_matched u).getD []) t) }

/-- The outer term loop: compute df, return early (None, meaning the whole
search returns empty) when df is zero, else stream the postings of the
term. -/
noncomputable def processTerms (db : Db) (N : Int) (avgdl : ℝ) :
    List String → SearchState → Option SearchState
  | [], st => some st
  | t :: rest, st =>
    if dfOf db t = 0 then none
    else
      processTerms db N avgdl rest
        ((db.postings.filter (fun p => p.term = t)).foldl
          (processPosting db N avgdl (dfOf db t) t) st)

structure ResultRec where
  url : String
  title : String
  text_excerpt : String
  score : ℝ

/-- meta.get("final_url") or meta.get("url"): the final url unless absent
or empty. -/
def finalOr (fu : Option String) (u : String) : String :=
  match fu with
  | none => u
  | some f => if f = "" then u else f

/-- docs_map: one find over documents with url in the paged urls, later
records overwriting earlier ones on the same url. -/
def docsMapOf (db : Db) (urls : List String) : List (String × DocumentRec) :=
  (db.documents.filter (fun d => d.url ∈ urls)).foldl
    (fun m d => dictSet m d.url d) []

noncomputable def buildResultFromMap (docsMap : List (String × DocumentRec))
    (scores : List (String × ℝ)) (u : String) : ResultRec :=
  match dictFind? docsMap u with
  | none => { url := u, title := "", text_excerpt := "",
              score := (dictFind? scores u).getD 0 }
  | some d => { url := finalOr d.final_url d.url, title := d.title.getD "",
                text_excerpt := d.text_excerpt.getD "",
                score := (dictFind? scores u).getD 0 }

/-- sorted with key score and reverse true is a stable descending sort. -/
noncomputable def scoreDescBool (a b : String × ℝ) : Bool := decide (b.2 ≤ a.2)

/-- _bm25_search: normalize and deduplicate the query, guard on empty
terms, empty corpus and zero df, accumulate per-document scores and
matched terms, keep the conjunctive candidates, sort by score descending,
page with skip and limit, and build the result records. -/
noncomputable def _bm25_search (db : Db) (query : String) (limit skip : Nat) :
    List ResultRec :=
  let terms := searchTerms query
  if terms = [] then []
  else
    let N := (corpusStats db).1
    let avgdl := (corpusStats db).2
    if N = 0 then []
    else
      match processTerms db (N : Int) avgdl terms initState with
      | none => []
      | some st =>
        let conj := (st.doc_matched.filter
          (fun um => terms.all (fun t => t ∈ um.2))).map (fun um => um.1)
        if conj = [] then []
        else
          let scored := conj.map (fun u => (u, (dictFind? st.doc_scores u).getD 0))
          let ranked := scored.mergeSort scoreDescBool
          let paged := (ranked.drop skip).take limit
          let urls := paged.map (fun pr => pr.1)
          if urls = [] then []
          else
            let docsMap := docsMapOf db urls
            urls.map (buildResultFromMap docsMap st.doc_scores)

/-! Pipeline stages named for the theorems. -/

noncomputable def searchStateOf (db : Db) (q : String) : Option SearchState :=
  processTerms db (((corpusStats db).1 : Nat) : Int) (corpusStats db).2
    (searchTerms q) initState

noncomputable def candidatePairs (db : Db) (q : String) : List (String × ℝ) :=
  if searchTerms q = [] then []
  else if (corpusStats db).1 = 0 then []
  else
    match searchStateOf db q with
    | none => []
    | some st =>
      ((st.doc_matched.filter
        (fun um => (searchTerms q).all (fun t => t ∈ um.2))).map (fun um => um.1)).map
        (fun u => (u, (dictFind? st.doc_scores u).getD 0))

noncomputable def rankedPairs (db : Db) (q : String) : List (String × ℝ) :=
  (candidatePairs db q).mergeSort scoreDescBool

noncomputable def scoresOf (db : Db) (q : String) : List (String × ℝ) :=
  match searchStateOf db q with
  | none => []
  | some st => st.doc_scores

def metaOf (db : Db) (u : String) : Option DocumentRec :=
  db.documents.reverse.find? (fun d => d.url = u)

/-- Modelled from the spec: the per-term BM25 formula of the spec, whose
length normalization denominator is max(avgdl, 1). Defined solely for
comparison against the code embedding _bm25_score. -/
noncomputable def spec_bm25_score (tf df dl N : Int) (avgdl : ℝ) : ℝ :=
  Real.log (1 + max 0 (((N : ℝ) - (df : ℝ) + 1 / 2) / ((df : ℝ) + 1 / 2))) *
    (((tf : ℝ) * (bm25_k1 + 1)) /
      ((tf : ℝ) + bm25_k1 * (1 - bm25_b + bm25_b * ((dl : ℝ) / max avgdl 1))))

noncomputable def resultOf (db : Db) (q : String) (u : String) : ResultRec :=
  match metaOf db u with
  | none => { url := u, title := "", text_excerpt := "",
              score := (dictFind? (scoresOf db q) u).getD 0 }
  | some d => { url := finalOr d.final_url d.url, title := d.title.getD "",
                text_excerpt := d.text_excerpt.getD "",
                score := (dictFind? (scoresOf db q) u).getD 0 }

/-- C3 (counterexample): at tf = df = dl = N = 1 and avgdl = 1/2 the score
computed by _bm25_score differs from the claimed formula: the code divides
dl by avgdl itself (Python avgdl or 1.0), not by max(avgdl, 1), so for
0 < avgdl < 1 the two disagree. -/
theorem bm25_score_max_denominator_refuted :
    _bm25_score 1 1 1 1 ((1 : ℝ) / 2) ≠ spec_bm25_score 1 1 1 1 ((1 : ℝ) / 2) := by
  have hlog : 0 < Real.log (1 + 1 / 3) := Real.log_pos (by norm_num)
  simp only [_bm25_score, spec_bm25_score, bm25_k1, bm25_b]
  rw [if_neg (by norm_num)]
  rw [if_neg (by norm_num : ¬ ((1 : ℝ) / 2 = 0))]
  have hmax : max ((1 : ℝ) / 2) 1 = 1 := by norm_num
  have hmax0 : max (0 : ℝ)
      ((((1 : ℤ) : ℝ) - ((1 : ℤ) : ℝ) + 1 / 2) / (((1 : ℤ) : ℝ) + 1 / 2)) = 1 / 3 := by
    push_cast
    norm_num
  rw [hmax, hmax0]
  push_cast
  intro heq
  nlinarith [hlog, heq]

/-- C3 (amended): for tf, df, N at least 1, dl at least 0 and avgdl at
least 0, the per-term score is idf times tf(k1+1)/(tf+K) with
K = k1(1 - b + b dl/D), where the denominator D is avgdl itself when
avgdl is nonzero and 1 when avgdl is zero; this agrees with the claimed
max(avgdl, 1) denominator whenever avgdl = 0 or avgdl is at least 1. -/
theorem bm25_score_formula (tf df dl N : Int) (avgdl : ℝ)
    (htf : 1 ≤ tf) (hdf : 1 ≤ df) (hdl : 0 ≤ dl) (hN : 1 ≤ N) (havg : 0 ≤ avgdl) :
    _bm25_score tf df dl N avgdl =
      Real.log (1 + max 0 (((N : ℝ) - (df : ℝ) + 1 / 2) / ((df : ℝ) + 1 / 2))) *
        (((tf : ℝ) * (bm25_k1 + 1)) /
          ((tf : ℝ) + bm25_k1 * (1 - bm25_b + bm25_b *
            ((dl : ℝ) / (if avgdl = 0 then 1 else avgdl))))) ∧
    ((avgdl = 0 ∨ 1 ≤ avgdl) →
      _bm25_score tf df dl N avgdl = spec_bm25_score tf df dl N avgdl) := by
  have hguard : ¬ (tf ≤ 0 ∨ df ≤ 0 ∨ N ≤ 0) := by
    push_neg
    omega
  have hmain : _bm25_score tf df dl N avgdl =
      Real.log (1 + max 0 (((N : ℝ) - (df : ℝ) + 1 / 2) / ((df : ℝ) + 1 / 2))) *
        (((tf : ℝ) * (bm25_k1 + 1)) /
          ((tf : ℝ) + bm25_k1 * (1 - bm25_b + bm25_b *
            ((dl : ℝ) / (if avgdl = 0 then 1 else avgdl))))) := by
    rw [_bm25_score, if_neg hguard]
  refine ⟨hmain, ?_⟩
  rintro (h0 | h1)
  · subst h0
    rw [hmain, spec_bm25_score, if_pos rfl]
    norm_num
  · have hne : avgdl ≠ 0 := by
      intro h
      rw [h] at h1
      norm_num at h1
    rw [hmain, spec_bm25_score, if_neg hne, max_eq_left h1]

/-- Witness: the score formula at tf = df = dl = N = 1 and avgdl = 2. -/
theorem bm25_score_formula_witness :
    ((1 : ℤ) ≤ 1 ∧ (0 : ℤ) ≤ 1 ∧ (0 : ℝ) ≤ 2) ∧
    (((2 : ℝ) = 0 ∨ 1 ≤ (2 : ℝ)) →
      _bm25_score 1 1 1 1 2 = spec_bm25_score 1 1 1 1 2) :=
  ⟨⟨by norm_num, by norm_num, by norm_num⟩,
   (bm25_score_formula 1 1 1 1 2 (by norm_num) (by norm_num) (by norm_num)
     (by norm_num) (by norm_num)).2⟩

theorem processTerms_none_of_df_zero (db : Db) (N : Int) (avgdl : ℝ) :
    ∀ (ts : List String) (st : SearchState) (t : String), t ∈ ts → dfOf db t = 0 →
      processTerms db N avgdl ts st = none := by
  intro ts
  induction ts with
  | nil =>
    intro st t ht _
    exact absurd ht (List.not_mem_nil t)
  | cons t0 rest ih =>
    intro st t ht hdf
    by_cases h0 : dfOf db t0 = 0
    · simp only [processTerms]
      rw [if_pos h0]
    · rcases List.mem_cons.mp ht with rfl | hrest
      · exact absurd hdf h0
      · simp only [processTerms]
        rw [if_neg h0]
        exact ih _ t hrest hdf

def demoDoc : DocumentRec :=
  { url := "u1", final_url := none, title := none, text_excerpt := none,
    content_length := 3 }

def demoPosting : PostingRec :=
  { term := "fox", doc_url := some "u1", tf := 1, positions := [0] }

/-- The concrete one-document, one-posting database. -/
def demoDb : Db := { documents := [demoDoc], postings := [demoPosting] }

/-- C5: the BM25 search returns the empty list, not an error, whenever the
normalized deduplicated query is empty, the documents collection is empty,
or some query term occurs in no posting. -/
theorem bm25_search_empty_cases (db : Db) (q : String) (limit skip : Nat)
    (h : searchTerms q = [] ∨ db.documents = [] ∨ ∃ t ∈ searchTerms q, dfOf db t = 0) :
    _bm25_search db q limit skip = [] := by
  rcases h with h | h | ⟨t, ht, hdf⟩
  · simp only [_bm25_search]
    rw [if_pos h]
  · simp only [_bm25_search]
    by_cases hterms : searchTerms q = []
    · rw [if_pos hterms]
    · rw [if_neg hterms]
      have hN : (corpusStats db).1 = 0 := by simp [corpusStats, h]
      rw [if_pos hN]
  · simp only [_bm25_search]
    by_cases hterms : searchTerms q = []
    · rw [if_pos hterms]
    · rw [if_neg hterms]
      by_cases hN : (corpusStats db).1 = 0
      · rw [if_pos hN]
      · rw [if_neg hN]
        rw [processTerms_none_of_df_zero db _ _ (searchTerms q) initState t ht hdf]

/-- Witness: a query consisting of a single stopword returns empty. -/
theorem bm25_search_empty_cases_witness :
    (searchTerms "the" = [] ∨ demoDb.documents = [] ∨
      ∃ t ∈ searchTerms "the", dfOf demoDb t = 0) ∧
    _bm25_search demoDb "the" 5 0 = [] :=
  ⟨Or.inl (by decide), bm25_search_empty_cases demoDb "the" 5 0 (Or.inl (by decide))⟩

theorem scoreDescBool_trans (a b c : String × ℝ)
    (hab : scoreDescBool a b = true) (hbc : scoreDescBool b c = true) :
    scoreDescBool a c = true := by
  simp only [scoreDescBool, decide_eq_true_eq] at hab hbc ⊢
  exact le_trans hbc hab

theorem scoreDescBool_total (a b : String × ℝ) :
    (scoreDescBool a b || scoreDescBool b a) = true := by
  simp only [scoreDescBool, Bool.or_eq_true, decide_eq_true_eq]
  exact le_total b.2 a.2

theorem rankedPairs_perm (db : Db) (q : String) :
    (rankedPairs db q).Perm (candidatePairs db q) :=
  List.mergeSort_perm (candidatePairs db q) scoreDescBool

theorem rankedPairs_sorted (db : Db) (q : String) :
    (rankedPairs db q).Pairwise (fun a b => b.2 ≤ a.2) := by
  have h := List.sorted_mergeSort scoreDescBool_trans scoreDescBool_total
    (candidatePairs db q)
  exact h.imp (fun hab => by simpa [scoreDescBool] using hab)

theorem find?_filter_of_imp {α : Type} (l : List α) (p q : α → Bool)
    (h : ∀ x, q x = true → p x = true) : (l.filter p).find? q = l.find? q := by
  induction l with
  | nil => rfl
  | cons x xs ih =>
    rw [List.filter_cons]
    by_cases hp : p x = true
    · rw [if_pos hp]
      by_cases hq : q x = true
      · rw [List.find?_cons_of_pos _ hq, List.find?_cons_of_pos _ hq]
      · rw [List.find?_cons_of_neg _ (by simpa using hq),
          List.find?_cons_of_neg _ (by simpa using hq)]
        exact ih
    · rw [if_neg hp]
      have hq : ¬ q x = true := fun hqx => hp (h x hqx)
      rw [List.find?_cons_of_neg _ (by simpa using hq)]
      exact ih

theorem foldl_dictSet_docs (u : String) :
    ∀ (ds : List DocumentRec) (m : List (String × DocumentRec)),
      dictFind? (ds.foldl (fun m d => dictSet m d.url d) m) u =
        (match ds.reverse.find? (fun d => d.url = u) with
         | some d => some d
         | none => dictFind? m u) := by
  intro ds
  induction ds with
  | nil =>
    intro m
    rfl
  | cons d rest ih =>
    intro m
    rw [List.foldl_cons, ih (dictSet m d.url d), List.reverse_cons, List.find?_append]
    cases hf : rest.reverse.find? (fun d => d.url = u) with
    | some d2 => rfl
    | none =>
      by_cases hd : d.url = u
      · rw [List.find?_cons_of_pos _ (by simpa using hd)]
        rw [← hd, dictFind?_dictSet_self]
        simp
      · rw [List.find?_cons_of_neg _ (by simpa using hd)]
        rw [dictFind?_dictSet_ne _ _ _ _ (fun he => hd he.symm)]
        simp

theorem docsMapOf_lookup (db : Db) (urls : List String) (u : String) (hu : u ∈ urls) :
    dictFind? (docsMapOf db urls) u = metaOf db u := by
  rw [docsMapOf, foldl_dictSet_docs]
  have hrev : (db.documents.filter (fun d => d.url ∈ urls)).reverse.find?
      (fun d => d.url = u) = db.documents.reverse.find? (fun d => d.url = u) := by
    rw [← List.filter_reverse]
    exact find?_filter_of_imp _ _ _ (fun d hd => by
      simp only [decide_eq_true_eq] at hd
      simpa using hd ▸ hu)
  rw [hrev, metaOf]
  cases hf : db.documents.reverse.find? (fun d => d.url = u) with
  | some d => rfl
  | none => rfl

/-- The search result is the paged slice of the ranked candidate pairs,
each projected to its result record. -/
theorem search_eq_slice (db : Db) (q : String) (limit skip : Nat) :
    _bm25_search db q limit skip =
      (((rankedPairs db q).drop skip).take limit).map (fun pr => resultOf db q pr.1) := by
  by_cases hterms : searchTerms q = []
  · have hc : candidatePairs db q = [] := by
      simp only [candidatePairs]
      rw [if_pos hterms]
    have hl : _bm25_search db q limit skip = [] := by
      simp only [_bm25_search]
      rw [if_pos hterms]
    rw [hl, rankedPairs, hc, List.mergeSort_nil]
    simp
  · by_cases hN : (corpusStats db).1 = 0
    · have hc : candidatePairs db q = [] := by
        simp only [candidatePairs]
        rw [if_neg hterms, if_pos hN]
      have hl : _bm25_search db q limit skip = [] := by
        simp only [_bm25_search]
        rw [if_neg hterms, if_pos hN]
      rw [hl, rankedPairs, hc, List.mergeSort_nil]
      simp
    · cases hst : processTerms db (((corpusStats db).1 : Nat) : Int) (corpusStats db).2
        (searchTerms q) initState with
      | none =>
        have hso : searchStateOf db q = none := hst
        have hc : candidatePairs db q = [] := by
          simp only [candidatePairs]
          rw [if_neg hterms, if_neg hN, hso]
        have hl : _bm25_search db q limit skip = [] := by
          simp only [_bm25_search]
          rw [if_neg hterms, if_neg hN, hst]
        rw [hl, rankedPairs, hc, List.mergeSort_nil]
        simp
      | some st =>
        have hso : searchStateOf db q = some st := hst
        have hcand : candidatePairs db q =
            ((st.doc_matched.filter (fun um => (searchTerms q).all (fun t => t ∈ um.2))).map
              (fun um => um.1)).map (fun u => (u, (dictFind? st.doc_scores u).getD 0)) := by
          simp only [candidatePairs]
          rw [if_neg hterms, if_neg hN, hso]
        have hscores : scoresOf db q = st.doc_scores := by
          simp only [scoresOf]
          rw [hso]
        set conj := (st.doc_matched.filter
          (fun um => (searchTerms q).all (fun t => t ∈ um.2))).map (fun um => um.1)
          with hconj_def
        by_cases hconj : conj = []
        · have hc : candidatePairs db q = [] := by
            rw [hcand, hconj]
            rfl
          have hl : _bm25_search db q limit skip = [] := by
            simp only [_bm25_search]
            rw [if_neg hterms, if_neg hN, hst]
            dsimp only
            rw [← hconj_def]
            rw [if_pos hconj]
          rw [hl, rankedPairs, hc, List.mergeSort_nil]
          simp
        · set scored := conj.map (fun u => (u, (dictFind? st.doc_scores u).getD 0))
            with hscored_def
          set ranked := scored.mergeSort scoreDescBool with hranked_def
          set paged := (ranked.drop skip).take limit with hpaged_def
          set urls := paged.map (fun pr => pr.1) with hurls_def
          have hranked_eq : rankedPairs db q = ranked := by
            rw [rankedPairs, hcand]
          have hl : _bm25_search db q limit skip =
              (if urls = [] then []
               else urls.map (buildResultFromMap (docsMapOf db urls) st.doc_scores)) := by
            simp only [_bm25_search]
            rw [if_neg hterms, if_neg hN, hst]
            dsimp only
            rw [← hconj_def, if_neg hconj, ← hscored_def, ← hranked_def,
              ← hpaged_def, ← hurls_def]
          rw [hl, hranked_eq, ← hpaged_def]
          by_cases hurls : urls = []
          · rw [if_pos hurls]
            have hpag : paged = [] := by
              rw [hurls_def] at hurls
              exact List.map_eq_nil_iff.mp hurls
            rw [hpag]
            rfl
          · rw [if_neg hurls]
            have hrhs : paged.map (fun pr => resultOf db q pr.1)
                = urls.map (resultOf db q) := by
              rw [hurls_def, List.map_map]
              rfl
            rw [hrhs]
            apply List.map_congr_left
            intro u hu
            have hdm := docsMapOf_lookup db urls u hu
            simp only [buildResultFromMap, resultOf, hdm, hscores]

/-- C6: for every query, limit at least 1 and any skip, the ranked list is
a permutation of the conjunctive candidates sorted by non-increasing
score, the result list is exactly the slice [skip, skip + limit) of it
projected to result records, and hence at most limit results come back,
with a skip past the end yielding the empty slice without error. -/
theorem bm25_search_rank_and_page (db : Db) (q : String) (limit skip : Nat)
    (hlim : 1 ≤ limit) :
    (rankedPairs db q).Perm (candidatePairs db q) ∧
    (rankedPairs db q).Pairwise (fun a b => b.2 ≤ a.2) ∧
    _bm25_search db q limit skip =
      (((rankedPairs db q).drop skip).take limit).map (fun pr => resultOf db q pr.1) ∧
    (_bm25_search db q limit skip).length ≤ limit := by
  refine ⟨rankedPairs_perm db q, rankedPairs_sorted db q, search_eq_slice db q limit skip, ?_⟩
  rw [search_eq_slice, List.length_map]
  exact List.length_take_le limit _

/-- Witness: ranking and paging at the concrete database, limit 1. -/
theorem bm25_search_rank_and_page_witness :
    1 ≤ 1 ∧
    ((rankedPairs demoDb "fox").Perm (candidatePairs demoDb "fox") ∧
     (rankedPairs demoDb "fox").Pairwise (fun a b => b.2 ≤ a.2) ∧
     _bm25_search demoDb "fox" 1 0 =
       (((rankedPairs demoDb "fox").drop 0).take 1).map
         (fun pr => resultOf demoDb "fox" pr.1) ∧
     (_bm25_search demoDb "fox" 1 0).length ≤ 1) :=
  ⟨le_refl 1, bm25_search_rank_and_page demoDb "fox" 1 0 (le_refl 1)⟩

theorem mem_dictSet {α : Type} (m : List (String × α)) (k : String) (v : α) :
    ∀ x ∈ dictSet m k v, x = (k, v) ∨ x ∈ m := by
  induction m with
  | nil =>
    intro x hx
    simp only [dictSet, List.mem_singleton] at hx
    exact Or.inl hx
  | cons kv rest ih =>
    intro x hx
    by_cases h : kv.1 = k
    · simp only [dictSet, if_pos h] at hx
      rcases List.mem_cons.mp hx with rfl | hx2
      · exact Or.inl rfl
      · exact Or.inr (List.mem_cons_of_mem _ hx2)
    · simp only [dictSet, if_neg h] at hx
      rcases List.mem_cons.mp hx with rfl | hx2
      · exact Or.inr (List.mem_cons_self _ _)
      · rcases ih x hx2 with h1 | h2
        · exact Or.inl h1
        · exact Or.inr (List.mem_cons_of_mem _ h2)

theorem mem_setAdd (s : List String) (x y : String) (h : y ∈ setAdd s x) :
    y ∈ s ∨ y = x := by
  rw [setAdd] at h
  by_cases hx : x ∈ s
  · rw [if_pos hx] at h
    exact Or.inl h
  · rw [if_neg hx] at h
    rcases List.mem_append.mp h with h1 | h2
    · exact Or.inl h1
    · exact Or.inr (List.mem_singleton.mp h2)

/-- Every matched term of every document in the state is backed by a
posting of the collection with positive tf for that document. -/
def matchedInv (db : Db) (st : SearchState) : Prop :=
  ∀ um ∈ st.doc_matched, ∀ t ∈ um.2,
    ∃ p ∈ db.postings, p.term = t ∧ p.doc_url = some um.1 ∧ 0 < p.tf

theorem processPosting_inv (db : Db) (N : Int) (avgdl : ℝ) (df : Nat) (t : String)
    (st : SearchState) (p : PostingRec) (hp : p ∈ db.postings) (hterm : p.term = t)
    (hinv : matchedInv db st) : matchedInv db (processPosting db N avgdl df t st p) := by
  cases hu : p.doc_url with
  | none =>
    simp only [processPosting, hu]
    exact hinv
  | some u =>
    simp only [processPosting, hu]
    by_cases hguard : u = "" ∨ p.tf ≤ 0
    · rw [if_pos hguard]
      exact hinv
    · rw [if_neg hguard]
      intro um hum t2 ht2
      rcases mem_dictSet _ _ _ um hum with heq | hmem
      · subst heq
        rcases mem_setAdd _ _ _ ht2 with hold | rfl
        · cases hfind : dictFind? st.doc_matched u with
          | none =>
            rw [hfind] at hold
            cases hold
          | some s =>
            rw [hfind] at hold
            obtain ⟨kv, hkv, hkv2⟩ := Option.map_eq_some'.mp hfind
            have hkvmem := List.mem_of_find?_eq_some hkv
            have hkv1 : kv.1 = u := by simpa using List.find?_some hkv
            obtain ⟨p2, hp2, hterm2, hurl2, htf2⟩ :=
              hinv kv hkvmem t2 (by rw [hkv2]; exact hold)
            exact ⟨p2, hp2, hterm2, by rw [← hkv1]; exact hurl2, htf2⟩
        · push_neg at hguard
          exact ⟨p, hp, hterm, by rw [hu], by omega⟩
      · exact hinv um hmem t2 ht2

theorem foldl_processPosting_inv (db : Db) (N : Int) (avgdl : ℝ) (df : Nat) (t : String) :
    ∀ (l : List PostingRec) (st : SearchState),
      (∀ p ∈ l, p ∈ db.postings ∧ p.term = t) → matchedInv db st →
      matchedInv db (l.foldl (processPosting db N avgdl df t) st) := by
  intro l
  induction l with
  | nil =>
    intro st _ hinv
    exact hinv
  | cons p rest ih =>
    intro st hl hinv
    rw [List.foldl_cons]
    obtain ⟨hp, hterm⟩ := hl p (List.mem_cons_self p rest)
    exact ih _ (fun p2 hp2 => hl p2 (List.mem_cons_of_mem p hp2))
      (processPosting_inv db N avgdl df t st p hp hterm hinv)

theorem processTerms_inv (db : Db) (N : Int) (avgdl : ℝ) :
    ∀ (ts : List String) (st st2 : SearchState),
      matchedInv db st → processTerms db N avgdl ts st = some st2 →
      matchedInv db st2 := by
  intro ts
  induction ts with
  | nil =>
    intro st st2 hinv h
    simp only [processTerms] at h
    exact (Option.some.inj h) ▸ hinv
  | cons t rest ih =>
    intro st st2 hinv h
    simp only [processTerms] at h
    by_cases h0 : dfOf db t = 0
    · rw [if_pos h0] at h
      cases h
    · rw [if_neg h0] at h
      refine ih _ _ ?_ h
      refine foldl_processPosting_inv db N avgdl (dfOf db t) t _ st ?_ hinv
      intro p hp
      exact ⟨(List.mem_filter.mp hp).1, by simpa using (List.mem_filter.mp hp).2⟩

/-- C4: every result returned by the BM25 search comes from a document
key that carries a posting with positive tf for every term of the
deduplicated normalized query; the returned url is that key or the
final_url of its document. -/
theorem bm25_search_conjunctive (db : Db) (q : String) (limit skip : Nat) :
    ∀ r ∈ _bm25_search db q limit skip,
      ∃ u, (∀ t ∈ searchTerms q,
              ∃ p ∈ db.postings, p.term = t ∧ p.doc_url = some u ∧ 0 < p.tf) ∧
        (r.url = u ∨ ∃ d ∈ db.documents, d.url = u ∧ d.final_url = some r.url) := by
  intro r hr
  rw [search_eq_slice] at hr
  obtain ⟨pr, hpr, rfl⟩ := List.mem_map.mp hr
  have hpr2 : pr ∈ rankedPairs db q :=
    List.mem_of_mem_drop (List.mem_of_mem_take hpr)
  have hcand : pr ∈ candidatePairs db q := (rankedPairs_perm db q).mem_iff.mp hpr2
  simp only [candidatePairs] at hcand
  by_cases hterms : searchTerms q = []
  · rw [if_pos hterms] at hcand
    exact absurd hcand (List.not_mem_nil pr)
  · rw [if_neg hterms] at hcand
    by_cases hN : (corpusStats db).1 = 0
    · rw [if_pos hN] at hcand
      exact absurd hcand (List.not_mem_nil pr)
    · rw [if_neg hN] at hcand
      cases hso : searchStateOf db q with
      | none =>
        rw [hso] at hcand
        exact absurd hcand (List.not_mem_nil pr)
      | some st =>
        rw [hso] at hcand
        have hinv : matchedInv db st :=
          processTerms_inv db _ _ (searchTerms q) initState st
            (fun um hum => absurd hum (List.not_mem_nil um)) hso
        obtain ⟨u, hu_conj, rfl⟩ := List.mem_map.mp hcand
        obtain ⟨um, hum_f, rfl⟩ := List.mem_map.mp hu_conj
        obtain ⟨hum_mem, hum_all⟩ := List.mem_filter.mp hum_f
        refine ⟨um.1, ?_, ?_⟩
        · intro t ht
          have htin : t ∈ um.2 := by
            have := List.all_eq_true.mp hum_all t ht
            simpa using this
          exact hinv um hum_mem t htin
        · show (resultOf db q (um.1, (dictFind? st.doc_scores um.1).getD 0).1).url = um.1 ∨ _
          cases hm : metaOf db um.1 with
          | none =>
            left
            simp only [resultOf, hm]
          | some d =>
            have hdmem : d ∈ db.documents := by
              have := List.mem_of_find?_eq_some hm
              exact List.mem_reverse.mp this
            have hdurl : d.url = um.1 := by simpa using List.find?_some hm
            cases hfu : d.final_url with
            | none =>
              left
              simp only [resultOf, hm, finalOr, hfu]
              exact hdurl
            | some f =>
              by_cases hf : f = ""
              · left
                simp only [resultOf, hm, finalOr, hfu]
                rw [if_pos hf]
                exact hdurl
              · right
                refine ⟨d, hdmem, hdurl, ?_⟩
                simp only [resultOf, hm, finalOr, hfu]
                rw [if_neg hf]

/-- The matched-terms component of the search state over the concrete
database is free of real arithmetic and evaluates definitionally. -/
theorem demo_state_matched :
    (searchStateOf demoDb "fox").map (fun st => st.doc_matched)
      = some [("u1", ["fox"])] := rfl

theorem demo_candidates_len : (candidatePairs demoDb "fox").length = 1 := by
  obtain ⟨st, hso, hmatched⟩ := Option.map_eq_some'.mp demo_state_matched
  simp only [candidatePairs]
  rw [if_neg (by decide : ¬ searchTerms "fox" = []),
    if_neg (by decide : ¬ (corpusStats demoDb).1 = 0), hso]
  dsimp only
  rw [hmatched]
  rw [show searchTerms "fox" = ["fox"] from by decide]
  simp

theorem demo_search_len : (_bm25_search demoDb "fox" 10 0).length = 1 := by
  rw [search_eq_slice, List.length_map, List.drop_zero, List.length_take,
    (rankedPairs_perm demoDb "fox").length_eq, demo_candidates_len]
  omega

/-- Witness: the conjunctive guarantee at the concrete database, whose
search for fox returns exactly one result. -/
theorem bm25_search_conjunctive_witness :
    ∃ r ∈ _bm25_search demoDb "fox" 10 0,
      ∃ u, (∀ t ∈ searchTerms "fox",
              ∃ p ∈ demoDb.postings, p.term = t ∧ p.doc_url = some u ∧ 0 < p.tf) ∧
        (r.url = u ∨ ∃ d ∈ demoDb.documents, d.url = u ∧ d.final_url = some r.url) := by
  have hne : _bm25_search demoDb "fox" 10 0 ≠ [] := by
    intro h
    have h2 := demo_search_len
    rw [h] at h2
    cases h2
  obtain ⟨r, hr⟩ := List.exists_mem_of_ne_nil _ hne
  exact ⟨r, hr, bm25_search_conjunctive demoDb "fox" 10 0 r hr⟩

/-- Witness: the postings built for the page text fox fox. -/
theorem build_postings_invariants_witness :
    ∃ p ∈ _bulk_upsert_postings "u" (_build_postings "fox fox").1 (_build_postings "fox fox").2,
      p.positions.Pairwise (· < ·) ∧
      (∀ i ∈ p.positions, 0 ≤ i) ∧
      p.tf = (p.positions.length : Int) ∧
      p.positions = ((tokenize (pyLowerS "fox fox")).enum.filter
        (fun it => (normalize_text_for_index it.2).tokens = [p.term])).map
        (fun it => it.1) := by
  have hmem : ({ term := "fox", doc_url := some "u", tf := 2, positions := [0, 1] } : PostingRec)
      ∈ _bulk_upsert_postings "u" (_build_postings "fox fox").1 (_build_postings "fox fox").2 := by
    decide
  exact ⟨_, hmem, build_postings_invariants "fox fox" "u" _ hmem⟩

end SearchEngine
